import Mathlib

/-!
Verification development for the MiniGit version-control core
(src/models.py and src/main.py).

Modelling conventions:
* Pure functions are translated directly.
* The mutable object graph of commits (parent / children pointers) is
  embedded as an arena: `arena : List Commit`, where a commit is denoted
  by its index (= creation order).  Branch heads, parent links, children
  lists and the undo/redo stacks store arena indices.
* The branch linked list is a `List Branch` plus an `active` index; the
  Python code compares branch objects by identity, which corresponds to
  index equality here (every list cell is a distinct object).
* Wall-clock timestamps are oracle inputs: every operation that calls
  get_timestamp takes a `ts : String` parameter.
* Python attribute access on `None` raises; such crash points are
  modelled by operations returning `Option (MiniGitState × OpResult)`,
  with `none` = uncaught exception.  All such points are unreachable
  from reachable repository states.
* Python list `append`/`pop` stacks are modelled with the most recent
  element at the HEAD of a `List Nat`.
* `FileState.copy` is deep-copying in Python; at the repository level the
  model uses value semantics (the copy equals the original as a value),
  which is faithful because every cross-structure handoff in the source
  goes through `.copy()`.  The aliasing behaviour of `copy` itself is
  verified separately against an explicit heap model (section C9).
* The `timestamp` metadata field of a commit is not used by any
  operation or claim and is omitted from the embedded `Commit`.
-/

namespace MiniGit

/-- A file: name plus content (src/models.py, class File). -/
structure File where
  name : String
  content : String
  deriving Repr, DecidableEq

/-- Ordered collection of files (src/models.py, class FileState). -/
structure FileState where
  files : List File
  deriving Repr, DecidableEq

/-- FileState.add_file: replace the content of the first file with this
name in place, else append a new file at the end. -/
def addFileList : List File → String → String → List File
  | [], name, content => [⟨name, content⟩]
  | f :: rest, name, content =>
    if f.name = name then { f with content := content } :: rest
    else f :: addFileList rest name content

def FileState.add_file (fs : FileState) (name content : String) : FileState :=
  ⟨addFileList fs.files name content⟩

/-- FileState.remove_file: keep the files whose name differs. -/
def FileState.remove_file (fs : FileState) (name : String) : FileState :=
  ⟨fs.files.filter (fun f => f.name ≠ name)⟩

/-- FileState.get_file: first file with this name, if any. -/
def FileState.get_file (fs : FileState) (name : String) : Option File :=
  fs.files.find? (fun f => f.name = name)

/-- FileState.file_count. -/
def FileState.file_count (fs : FileState) : Nat :=
  fs.files.length

/-- FileState.copy: fresh File records with the same names and contents.
As a value this equals the original (see `FileState.copy_eq`); the
non-aliasing behaviour is verified against the heap model below. -/
def FileState.copy (fs : FileState) : FileState :=
  ⟨fs.files.map (fun f => ⟨f.name, f.content⟩)⟩

/-- generate_hash accumulator: h = h*31 + ord(ch) over the characters,
computed in unbounded signed integers exactly as Python evaluates it. -/
def hashInt (l : List Char) : Int :=
  l.foldl (fun h c => h * 31 + (c.toNat : Int)) 0

/-- Hex digit table of generate_hash. -/
def hexCharList : List Char := "0123456789abcdef".data

/-- The 8-round rendering loop of generate_hash: prepend hex_chars[temp % 16]
and divide temp by 16, eight times. -/
def hexLoop : Nat → Nat → String → String
  | 0, _, result => result
  | n + 1, temp, result =>
    hexLoop n (temp / 16) (String.mk [hexCharList.getD (temp % 16) ' '] ++ result)

/-- generate_hash (src/models.py): polynomial rolling hash, absolute
value, mask to 32 bits (for a non-negative integer the Python bitmask
`h & 0xFFFFFFFF` equals `h % 2^32`), then 8 hex digits. -/
def generate_hash (data : String) : String :=
  let h := hashInt data.data
  let h := if h < 0 then -h else h
  let h := (h % 4294967296).toNat
  hexLoop 8 h ""

/-- Commit tree node (src/models.py, class Commit); `parent` and
`children` hold arena indices.  The unused `timestamp` metadata field is
omitted. -/
structure Commit where
  commit_id : String
  message : String
  parent : Option Nat
  children : List Nat
  snapshot : FileState
  deriving Repr, DecidableEq

/-- Branch node (src/models.py, class Branch); `head` is an arena index.
The linked-list `next` pointer is represented by list order. -/
structure Branch where
  name : String
  head : Option Nat
  deriving Repr, DecidableEq

/-- BranchList.find_branch, as the index of the first branch with the
given name. -/
def find_idx (bs : List Branch) (name : String) : Option Nat :=
  bs.findIdx? (fun b => b.name = name)

/-- BranchList.add_branch: append at the tail; the new branch becomes
active only when there was no active branch. -/
def addBranch (branches : List Branch) (active : Option Nat)
    (name : String) (head : Option Nat) : List Branch × Option Nat :=
  (branches ++ [⟨name, head⟩],
   match active with
   | none => some branches.length
   | some i => some i)

/-- Append operation result: success flag plus human-readable message
(the JSON payloads carry further fields not needed by any claim). -/
structure OpResult where
  success : Bool
  message : String
  deriving Repr, DecidableEq

/-- Repository state (src/main.py, class MiniGitState). -/
structure MiniGitState where
  working_files : FileState
  staging_area : FileState
  branches : List Branch
  active : Option Nat
  undo_stack : List Nat
  redo_stack : List Nat
  arena : List Commit
  root_commit : Option Nat
  initialized : Bool
  deriving Repr, DecidableEq

/-- A freshly constructed repository. -/
def initState : MiniGitState :=
  { working_files := ⟨[]⟩, staging_area := ⟨[]⟩, branches := [], active := none,
    undo_stack := [], redo_stack := [], arena := [], root_commit := none,
    initialized := false }

/-- Append `childIdx` to the children of arena node `p` (the Python code
mutates `parent.children` in place; `p` is always valid there). -/
def attachChild (arena : List Commit) (p childIdx : Nat) : List Commit :=
  match arena[p]? with
  | none => arena
  | some c => arena.set p { c with children := c.children ++ [childIdx] }

/-- Append a freshly created commit to the arena, registering it as a
child of the given parent when there is one. -/
def newArena (arena : List Commit) (head : Option Nat) (c : Commit) : List Commit :=
  match head with
  | some h => attachChild arena h arena.length ++ [c]
  | none => arena ++ [c]

/-- init endpoint (src/main.py init_repo). -/
def init_repo (s : MiniGitState) : Option (MiniGitState × OpResult) :=
  if s.initialized then
    some (s, ⟨false, "Repository already initialized."⟩)
  else
    let ba := addBranch s.branches s.active "main" none
    some ({ s with branches := ba.1, active := ba.2, initialized := true },
      ⟨true, "Initialized empty MiniGit repository."⟩)

/-- add endpoint (src/main.py add_file): stages into both the staging
area and the working files. -/
def add_file_op (s : MiniGitState) (filename content : String) :
    Option (MiniGitState × OpResult) :=
  if s.initialized then
    some ({ s with staging_area := s.staging_area.add_file filename content,
                   working_files := s.working_files.add_file filename content },
      ⟨true, "Staged: " ++ filename⟩)
  else
    some (s, ⟨false, "Error: repo not initialized. Run \x27init\x27 first."⟩)

/-- commit endpoint (src/main.py commit_files). -/
def commit_files (s : MiniGitState) (message ts : String) :
    Option (MiniGitState × OpResult) :=
  if ¬ s.initialized then
    some (s, ⟨false, "Error: repo not initialized."⟩)
  else if s.staging_area.file_count = 0 then
    some (s, ⟨false, "Nothing to commit. Use \x27add\x27 first."⟩)
  else
    let raw := s.staging_area.files.foldl (fun r f => r ++ f.content) (message ++ ts)
    let commit_id := generate_hash raw
    match s.active with
    | none => none
    | some i =>
      match s.branches[i]? with
      | none => none
      | some current =>
        let new_commit : Commit :=
          { commit_id := commit_id, message := message,
            parent := current.head, children := [],
            snapshot := s.staging_area.copy }
        let arena := newArena s.arena current.head new_commit
        let root_commit :=
          match s.root_commit with
          | none => some s.arena.length
          | some r => some r
        some ({ s with arena := arena, root_commit := root_commit,
                       branches := s.branches.set i
                         { current with head := some s.arena.length },
                       undo_stack := s.arena.length :: s.undo_stack,
                       redo_stack := [],
                       staging_area := ⟨[]⟩ },
          ⟨true, "[" ++ current.name ++ " " ++ commit_id ++ "] " ++ message⟩)

/-- checkout endpoint (src/main.py checkout_branch). -/
def checkout_branch (s : MiniGitState) (name : String) :
    Option (MiniGitState × OpResult) :=
  if ¬ s.initialized then
    some (s, ⟨false, "Error: repo not initialized."⟩)
  else
    match find_idx s.branches name with
    | none => some (s, ⟨false, "Branch \x27" ++ name ++ "\x27 not found."⟩)
    | some j =>
      match s.branches[j]? with
      | none => none
      | some b =>
        match b.head with
        | some h =>
          match s.arena[h]? with
          | none => none
          | some c =>
            some ({ s with active := some j,
                           working_files := c.snapshot.copy,
                           staging_area := ⟨[]⟩ },
              ⟨true, "Switched to branch: " ++ name ++ " — Restored " ++
                toString c.snapshot.copy.file_count ++ " file(s)."⟩)
        | none =>
          some ({ s with active := some j,
                         working_files := ⟨[]⟩,
                         staging_area := ⟨[]⟩ },
            ⟨true, "Switched to branch: " ++ name ++ " — Branch has no commits yet."⟩)

/-- branch endpoint (src/main.py create_branch). -/
def create_branch (s : MiniGitState) (name : String) :
    Option (MiniGitState × OpResult) :=
  if ¬ s.initialized then
    some (s, ⟨false, "Error: repo not initialized."⟩)
  else if (find_idx s.branches name).isSome then
    some (s, ⟨false, "Branch \x27" ++ name ++ "\x27 already exists."⟩)
  else
    match s.active with
    | none => none
    | some i =>
      match s.branches[i]? with
      | none => none
      | some ab =>
        let ba := addBranch s.branches s.active name ab.head
        some ({ s with branches := ba.1, active := ba.2 },
          ⟨true, "Created branch: " ++ name⟩)

/-- The union loop of merge: add every file of the source snapshot into
the accumulator (FileState.add_file replaces on name collision, so the
source wins). -/
def foldAdd (base : FileState) (l : List File) : FileState :=
  l.foldl (fun acc f => acc.add_file f.name f.content) base

/-- The base snapshot of a merge commit: a copy of the active head
snapshot, or an empty FileState when the active branch has no head
(`none` = crash on a dangling head reference, unreachable). -/
def headSnapshot (arena : List Commit) : Option Nat → Option FileState
  | some h => (arena[h]?).map (fun c => c.snapshot.copy)
  | none => some ⟨[]⟩

/-- merge endpoint (src/main.py merge_branch, the newest variant:
the source file always overwrites on a name collision). -/
def merge_branch (s : MiniGitState) (bname ts : String) :
    Option (MiniGitState × OpResult) :=
  if ¬ s.initialized then
    some (s, ⟨false, "Error: repo not initialized."⟩)
  else
    match find_idx s.branches bname with
    | none => some (s, ⟨false, "Branch \x27" ++ bname ++ "\x27 not found."⟩)
    | some j =>
      if s.active = some j then
        some (s, ⟨false, "Cannot merge branch into itself."⟩)
      else
        match s.branches[j]? with
        | none => none
        | some src =>
          match src.head with
          | none => some (s, ⟨false, "Source branch has no commits."⟩)
          | some hs =>
            let commit_id := generate_hash ("merge:" ++ bname ++ ts)
            match s.active with
            | none => none
            | some i =>
              match s.branches[i]? with
              | none => none
              | some ab =>
                let msg := "Merge branch \x27" ++ bname ++ "\x27 into " ++ ab.name
                match s.arena[hs]? with
                | none => none
                | some srcHead =>
                  match headSnapshot s.arena ab.head with
                  | none => none
                  | some base =>
                    let snap := foldAdd base srcHead.snapshot.files
                    let merge_commit : Commit :=
                      { commit_id := commit_id, message := msg,
                        parent := ab.head, children := [], snapshot := snap }
                    let arena := newArena s.arena ab.head merge_commit
                    let root_commit :=
                      match s.root_commit with
                      | none => some s.arena.length
                      | some r => some r
                    some ({ s with arena := arena, root_commit := root_commit,
                                   branches := s.branches.set i
                                     { ab with head := some s.arena.length },
                                   working_files := snap.copy,
                                   staging_area := ⟨[]⟩,
                                   undo_stack := s.arena.length :: s.undo_stack,
                                   redo_stack := [] },
                      ⟨true, msg⟩)

/-- undo endpoint (src/main.py undo). -/
def undo (s : MiniGitState) : Option (MiniGitState × OpResult) :=
  if ¬ s.initialized then
    some (s, ⟨false, "Error: repo not initialized."⟩)
  else
    match s.undo_stack with
    | [] => some (s, ⟨false, "Nothing to undo."⟩)
    | c :: rest =>
      match s.arena[c]? with
      | none => none
      | some cc =>
        match s.active with
        | none => none
        | some i =>
          match s.branches[i]? with
          | none => none
          | some ab =>
            match cc.parent with
            | some p =>
              match s.arena[p]? with
              | none => none
              | some pc =>
                some ({ s with undo_stack := rest,
                               redo_stack := c :: s.redo_stack,
                               branches := s.branches.set i { ab with head := some p },
                               working_files := pc.snapshot.copy },
                  ⟨true, "Undo: reverted to commit " ++ pc.commit_id⟩)
            | none =>
              some ({ s with undo_stack := rest,
                             redo_stack := c :: s.redo_stack,
                             branches := s.branches.set i { ab with head := none },
                             working_files := ⟨[]⟩ },
                ⟨true, "Undo: reverted to initial state (no commits)."⟩)

/-- redo endpoint (src/main.py redo). -/
def redo (s : MiniGitState) : Option (MiniGitState × OpResult) :=
  if ¬ s.initialized then
    some (s, ⟨false, "Error: repo not initialized."⟩)
  else
    match s.redo_stack with
    | [] => some (s, ⟨false, "Nothing to redo."⟩)
    | c :: rest =>
      match s.arena[c]? with
      | none => none
      | some cc =>
        match s.active with
        | none => none
        | some i =>
          match s.branches[i]? with
          | none => none
          | some ab =>
            some ({ s with redo_stack := rest,
                           undo_stack := c :: s.undo_stack,
                           branches := s.branches.set i { ab with head := some c },
                           working_files := cc.snapshot.copy },
              ⟨true, "Redo: restored commit " ++ cc.commit_id ++ " — " ++ cc.message⟩)

/-- find_in_history (src/models.py): walk parent links looking for a
commit id.  The fuel argument bounds the chain length; `arena.length`
always suffices because a parent index is smaller than its child index
in every reachable arena. -/
def find_in_history (arena : List Commit) : Nat → Option Nat → String → Option Nat
  | _, none, _ => none
  | 0, some _, _ => none
  | fuel + 1, some k, cid =>
    match arena[k]? with
    | none => none
    | some c =>
      if c.commit_id = cid then some k
      else find_in_history arena fuel c.parent cid

/-- find_commit (src/models.py): pre-order DFS over the subtree, written
with an explicit work list (children are pushed in front, preserving the
left-to-right pre-order of the recursive source).  Fuel bounds the number
of visited nodes; `arena.length` suffices on reachable arenas. -/
def dfsFind (arena : List Commit) : Nat → List Nat → String → Option Nat
  | 0, _, _ => none
  | _, [], _ => none
  | fuel + 1, k :: stack, cid =>
    match arena[k]? with
    | none => dfsFind arena fuel stack cid
    | some c =>
      if c.commit_id = cid then some k
      else dfsFind arena fuel (c.children ++ stack) cid

/-- The target lookup of revert: search the parent-chain ancestry of
the active head first, then fall back to a DFS over the whole tree from
root_commit (only when the root exists). -/
def revertTarget (s : MiniGitState) (hd : Nat) (cid : String) : Option Nat :=
  let t0 := find_in_history s.arena s.arena.length (some hd) cid
  match t0, s.root_commit with
  | none, some r => dfsFind s.arena s.arena.length [r] cid
  | _, _ => t0

/-- revert endpoint (src/main.py revert). -/
def revert (s : MiniGitState) (cid ts : String) :
    Option (MiniGitState × OpResult) :=
  if ¬ s.initialized then
    some (s, ⟨false, "Error: repo not initialized."⟩)
  else
    match s.active with
    | none => none
    | some i =>
      match s.branches[i]? with
      | none => none
      | some current =>
        match current.head with
        | none => some (s, ⟨false, "No commits to revert."⟩)
        | some hd =>
          match revertTarget s hd cid with
          | none => some (s, ⟨false, "Commit \x27" ++ cid ++ "\x27 not found."⟩)
          | some tk =>
            match s.arena[tk]? with
            | none => none
            | some tc =>
              let new_id := generate_hash ("revert:" ++ cid ++ ts)
              let msg := "Revert to " ++ cid
              let revert_commit : Commit :=
                { commit_id := new_id, message := msg, parent := some hd,
                  children := [], snapshot := tc.snapshot.copy }
              some ({ s with working_files := tc.snapshot.copy,
                             staging_area := tc.snapshot.copy,
                             arena := newArena s.arena (some hd) revert_commit,
                             branches := s.branches.set i
                               { current with head := some s.arena.length },
                             undo_stack := s.arena.length :: s.undo_stack,
                             redo_stack := [] },
                ⟨true, "Reverted to commit " ++ cid⟩)

/-- diff endpoint (src/main.py diff_file); read-only. -/
def diff_file (s : MiniGitState) (filename : String) :
    Option (MiniGitState × OpResult) :=
  if ¬ s.initialized then
    some (s, ⟨false, "Error: repo not initialized."⟩)
  else
    match s.working_files.get_file filename with
    | none => some (s, ⟨false, "File \x27" ++ filename ++ "\x27 not in working directory."⟩)
    | some wf =>
      let work_hash := generate_hash wf.content
      match s.active with
      | none => none
      | some i =>
        match s.branches[i]? with
        | none => none
        | some current =>
          match current.head with
          | none => some (s, ⟨true, "+ " ++ filename ++ " [" ++ work_hash ++ "] (new file)"⟩)
          | some h =>
            match s.arena[h]? with
            | none => none
            | some hc =>
              match hc.snapshot.get_file filename with
              | none => some (s, ⟨true, "+ " ++ filename ++ " (new — not in last commit)"⟩)
              | some cf =>
                if work_hash = generate_hash cf.content then
                  some (s, ⟨true, filename ++ " — no changes."⟩)
                else
                  some (s, ⟨true, filename ++ " — MODIFIED"⟩)

/-- status endpoint (src/main.py get_status); read-only report (the
success payload has no message field). -/
def get_status (s : MiniGitState) : Option (MiniGitState × OpResult) :=
  if ¬ s.initialized then
    some (s, ⟨false, "Error: repo not initialized."⟩)
  else
    match s.active with
    | none => none
    | some i =>
      match s.branches[i]? with
      | none => none
      | some _ => some (s, ⟨true, ""⟩)

/-- One operation request, with timestamps as oracle inputs. -/
inductive Op where
  | init
  | add (filename content : String)
  | commit (message ts : String)
  | branch (name : String)
  | checkout (name : String)
  | merge (bname ts : String)
  | undo
  | redo
  | revert (commit_id ts : String)
  | diff (filename : String)
  | status
  deriving Repr, DecidableEq

/-- Dispatch one operation. -/
def step (s : MiniGitState) : Op → Option (MiniGitState × OpResult)
  | Op.init => init_repo s
  | Op.add f c => add_file_op s f c
  | Op.commit m ts => commit_files s m ts
  | Op.branch n => create_branch s n
  | Op.checkout n => checkout_branch s n
  | Op.merge b ts => merge_branch s b ts
  | Op.undo => undo s
  | Op.redo => redo s
  | Op.revert cid ts => revert s cid ts
  | Op.diff f => diff_file s f
  | Op.status => get_status s

/-- Run a sequence of operations, discarding the per-operation results. -/
def runO : MiniGitState → List Op → Option MiniGitState
  | s, [] => some s
  | s, op :: ops =>
    match step s op with
    | none => none
    | some (s', _) => runO s' ops

/-- A state is reachable when some operation sequence produces it from a
freshly constructed repository. -/
def ReachableState (s : MiniGitState) : Prop :=
  ∃ ops : List Op, runO initState ops = some s

/-- All arena indices reachable from the work list via children links
(pre-order depth-first, fuel-bounded; fuel = arena length suffices on
forest-shaped arenas). -/
def descendants (arena : List Commit) : Nat → List Nat → List Nat
  | 0, _ => []
  | _ + 1, [] => []
  | fuel + 1, k :: stack =>
    k :: descendants arena fuel
      ((match arena[k]? with
        | some c => c.children
        | none => []) ++ stack)

/-- Structural invariant of the commit graph: parents precede their
children in creation order (so parent links are acyclic and the commits
form a forest), the parent and children links agree in both directions,
the root commit is the first commit ever created, and all branch heads
and stack entries point into the arena. -/
structure TreeInv (s : MiniGitState) : Prop where
  parent_lt : ∀ (k : Nat) (c : Commit) (p : Nat), s.arena[k]? = some c →
    c.parent = some p → p < k
  child_spec : ∀ (k : Nat) (c : Commit) (j : Nat), s.arena[k]? = some c →
    j ∈ c.children → k < j ∧ ∃ cj, s.arena[j]? = some cj ∧ cj.parent = some k
  parent_child : ∀ (k : Nat) (c : Commit) (p : Nat), s.arena[k]? = some c →
    c.parent = some p → ∃ cp, s.arena[p]? = some cp ∧ k ∈ cp.children
  root_spec : (s.root_commit = none ∧ s.arena = []) ∨ s.root_commit = some 0
  heads_lt : ∀ b ∈ s.branches, ∀ h : Nat, b.head = some h → h < s.arena.length
  undo_lt : ∀ c ∈ s.undo_stack, c < s.arena.length
  redo_lt : ∀ c ∈ s.redo_stack, c < s.arena.length

/-- Requests that only stage files or commit. -/
def isAddCommit : Op → Bool
  | Op.add _ _ => true
  | Op.commit _ _ => true
  | _ => false

/-- Invariant of the states reached by init followed by add/commit
requests only: the repository is initialized with the single branch main
active, the branch head is the most recent entry of the undo stack, and
undo entries and parent links point into the arena. -/
structure ACInv (s : MiniGitState) : Prop where
  hinit : s.initialized = true
  hactive : s.active = some 0
  hbr : s.branches = [⟨"main", s.undo_stack.head?⟩]
  hundo : ∀ c ∈ s.undo_stack, c < s.arena.length
  hpar : ∀ (k : Nat) (c : Commit) (p : Nat), s.arena[k]? = some c →
    c.parent = some p → p < s.arena.length

/-! ### The fingerprint function (claim C8) -/

/-- The accumulation of the claim, in Nat: h = h*31 + codepoint. -/
def hashNat (l : List Char) : Nat :=
  l.foldl (fun h c => h * 31 + c.toNat) 0

/-- The digit list produced by the rendering loop of generate_hash
(least significant digit extracted first, placed last). -/
def hexDigits : Nat → Nat → List Char
  | 0, _ => []
  | n + 1, t => hexDigits n (t / 16) ++ [hexCharList.getD (t % 16) ' ']

/-- Numeric hex value of a digit character. -/
def hexVal (c : Char) : Nat := hexCharList.indexOf c

/-- Value denoted by a big-endian string of hex digits. -/
def hexListVal (l : List Char) : Nat :=
  l.foldl (fun a c => a * 16 + hexVal c) 0

/-! ### Heap model of File objects (claim C9)

FileState.copy in Python allocates new File objects; the non-aliasing
claim is about object identity, so it is verified against an explicit
heap: File objects live in an allocation arena (`Heap`), a FileState is
a list of addresses, add_file mutates the pointed-to cell in place (or
allocates), remove_file drops addresses, and copy allocates fresh
cells. -/

/-- One Python File object (a mutable name/content cell). -/
structure HFile where
  name : String
  content : String
  deriving Repr, DecidableEq

/-- The scan of FileState.add_file on the heap model: mutate, in place,
the first aliased File whose name matches; none when no name matches.
A dangling address is skipped (unreachable under validity: Python
addresses are always live). -/
def addFileHAux (heap : List HFile) : List Nat → String → String → Option (List HFile)
  | [], _, _ => none
  | a :: rest, name, content =>
    match heap[a]? with
    | none => addFileHAux heap rest name content
    | some f =>
      if f.name = name then some (heap.set a { f with content := content })
      else addFileHAux heap rest name content

/-- FileState.add_file on the heap model: mutate the matching File in
place, else allocate a fresh File object and append its address. -/
def addFileH (heap : List HFile) (addrs : List Nat) (name content : String) :
    List HFile × List Nat :=
  match addFileHAux heap addrs name content with
  | some heap2 => (heap2, addrs)
  | none => (heap ++ [⟨name, content⟩], addrs ++ [heap.length])

/-- FileState.remove_file on the heap model: drop the addresses whose
File carries this name; no File object is mutated. -/
def removeFileH (heap : List HFile) (addrs : List Nat) (name : String) :
    List HFile × List Nat :=
  (heap, addrs.filter (fun a =>
    match heap[a]? with
    | some f => f.name != name
    | none => true))

/-- One iteration of FileState.copy: read the aliased File and append a
freshly allocated File with the same name and content. -/
def copyStep (p : List HFile × List Nat) (a : Nat) : List HFile × List Nat :=
  match p.1[a]? with
  | some f => (p.1 ++ [⟨f.name, f.content⟩], p.2 ++ [p.1.length])
  | none => p

/-- FileState.copy on the heap model. -/
def copyH (heap : List HFile) (addrs : List Nat) : List HFile × List Nat :=
  addrs.foldl copyStep (heap, [])

/-- One mutating FileState operation. -/
inductive HOp where
  | add (name content : String)
  | remove (name : String)
  deriving Repr, DecidableEq

def applyHOp (p : List HFile × List Nat) : HOp → List HFile × List Nat
  | HOp.add n c => addFileH p.1 p.2 n c
  | HOp.remove n => removeFileH p.1 p.2 n

def runH : List HFile × List Nat → List HOp → List HFile × List Nat
  | p, [] => p
  | p, op :: ops => runH (applyHOp p op) ops

/-- The observable ordered (name, content) entries of a file
collection. -/
def entriesH (heap : List HFile) (addrs : List Nat) :
    List (Option (String × String)) :=
  addrs.map (fun a => (heap[a]?).map (fun f => (f.name, f.content)))

/-! ### General lemmas -/

theorem FileState.copy_eq (fs : FileState) : fs.copy = fs := by
  cases fs with
  | mk l =>
    simp only [FileState.copy, FileState.mk.injEq]
    induction l with
    | nil => rfl
    | cons f rest ih => cases f; simp [ih]

theorem hashInt_eq_hashNat (l : List Char) : hashInt l = (hashNat l : Int) := by
  have key : ∀ (l : List Char) (n : Nat),
      l.foldl (fun h c => h * 31 + (c.toNat : Int)) (n : Int) =
        ((l.foldl (fun h c => h * 31 + c.toNat) n : Nat) : Int) := by
    intro l
    induction l with
    | nil => intro n; rfl
    | cons c rest ih =>
      intro n
      have : ((n : Int) * 31 + (c.toNat : Int)) = ((n * 31 + c.toNat : Nat) : Int) := by
        push_cast; ring
      simp only [List.foldl_cons, this, ih]
  simpa using key l 0

theorem hexLoop_data (n : Nat) : ∀ (t : Nat) (r : String),
    (hexLoop n t r).data = hexDigits n t ++ r.data := by
  induction n with
  | zero => intro t r; simp [hexLoop, hexDigits]
  | succ n ih =>
    intro t r
    simp only [hexLoop, hexDigits, ih, String.data_append]
    simp

theorem hexDigits_length (n : Nat) : ∀ t : Nat, (hexDigits n t).length = n := by
  induction n with
  | zero => intro t; rfl
  | succ n ih => intro t; simp [hexDigits, ih]

theorem hexDigits_mem (n : Nat) : ∀ (t : Nat), ∀ c ∈ hexDigits n t, c ∈ hexCharList := by
  induction n with
  | zero => intro t c hc; simp [hexDigits] at hc
  | succ n ih =>
    intro t c hc
    simp only [hexDigits, List.mem_append, List.mem_singleton] at hc
    rcases hc with hc | hc
    · exact ih _ c hc
    · subst hc
      have h16 : t % 16 < hexCharList.length := by
        have : t % 16 < 16 := Nat.mod_lt _ (by norm_num)
        simpa [hexCharList] using this
      rw [List.getD_eq_getElem _ _ h16]
      exact List.getElem_mem h16

theorem hexVal_getD (d : Nat) (hd : d < 16) :
    hexVal (hexCharList.getD d ' ') = d := by
  interval_cases d <;> rfl

theorem hexListVal_digits (n : Nat) : ∀ t : Nat, hexListVal (hexDigits n t) = t % 16 ^ n := by
  induction n with
  | zero => intro t; simp [hexDigits, hexListVal, Nat.mod_one]
  | succ n ih =>
    intro t
    have : hexListVal (hexDigits n (t / 16) ++ [hexCharList.getD (t % 16) ' ']) =
        hexListVal (hexDigits n (t / 16)) * 16 + hexVal (hexCharList.getD (t % 16) ' ') := by
      simp [hexListVal, List.foldl_append]
    rw [hexDigits, this, ih, hexVal_getD _ (Nat.mod_lt _ (by norm_num))]
    have hp : (16 : Nat) ^ (n + 1) = 16 * 16 ^ n := by ring
    rw [hp, Nat.mod_mul]
    ring

theorem generate_hash_data (s : String) :
    (generate_hash s).data = hexDigits 8 (hashNat s.data % 4294967296) := by
  have hnn : ¬ (hashInt s.data < 0) := by
    rw [hashInt_eq_hashNat]
    exact not_lt.mpr (Int.natCast_nonneg _)
  have htn : ((hashInt s.data) % 4294967296).toNat = hashNat s.data % 4294967296 := by
    rw [hashInt_eq_hashNat]
    have : ((hashNat s.data : Int) % 4294967296) = ((hashNat s.data % 4294967296 : Nat) : Int) := by
      push_cast
      rfl
    rw [this, Int.toNat_ofNat]
  simp only [generate_hash]
  rw [if_neg hnn, htn, hexLoop_data]
  simp

/-- C8: for every input string, generate_hash is deterministic (it is a
pure function of its input) and returns exactly 8 characters, all drawn
from the lowercase hex digit table, and the returned digit string
denotes, with leading zeros, precisely the value of the h = h*31 +
codepoint accumulation masked to the unsigned 32-bit range. -/
theorem c8_generate_hash_spec (s : String) :
    (generate_hash s).length = 8 ∧
    (∀ c ∈ (generate_hash s).data, c ∈ hexCharList) ∧
    (generate_hash s).data = hexDigits 8 (hashNat s.data % 4294967296) ∧
    hexListVal (generate_hash s).data = hashNat s.data % 4294967296 := by
  refine ⟨?_, ?_, generate_hash_data s, ?_⟩
  · show (generate_hash s).data.length = 8
    rw [generate_hash_data s, hexDigits_length]
  · rw [generate_hash_data s]
    exact hexDigits_mem 8 _
  · rw [generate_hash_data s, hexListVal_digits]
    have h1 : hashNat s.data % 4294967296 < 4294967296 := Nat.mod_lt _ (by norm_num)
    have h2 : (16 : Nat) ^ 8 = 4294967296 := by norm_num
    rw [h2, Nat.mod_eq_of_lt h1]

/-- C7: after init on a freshly constructed (uninitialized) repository,
exactly one branch exists, it is named main, it is the active branch and
its head is null; init on any already-initialized repository fails with
the already-initialized message and changes nothing. -/
theorem c7_init_spec :
    (∃ s1 r1, init_repo initState = some (s1, r1) ∧ r1.success = true ∧
      s1.branches = [⟨"main", none⟩] ∧ s1.active = some 0 ∧
      s1.initialized = true) ∧
    (∀ s : MiniGitState, s.initialized = true →
      init_repo s = some (s, ⟨false, "Repository already initialized."⟩)) := by
  constructor
  · exact ⟨_, _, rfl, rfl, rfl, rfl, rfl⟩
  · intro s hs
    unfold init_repo
    rw [if_pos hs]

/-- Witness for C7: the second conjunct applied to the state produced by
the first init. -/
theorem c7_init_spec_witness :
    ∃ s1 : MiniGitState, s1.initialized = true ∧
      init_repo s1 = some (s1, ⟨false, "Repository already initialized."⟩) := by
  refine ⟨{ initState with
              branches := [⟨"main", none⟩], active := some 0,
              initialized := true }, rfl, ?_⟩
  exact c7_init_spec.2 _ rfl

theorem attachChild_length (arena : List Commit) (p c : Nat) :
    (attachChild arena p c).length = arena.length := by
  unfold attachChild
  cases h : arena[p]? with
  | none => rfl
  | some cp => simp

theorem attachChild_getElem?_ne (arena : List Commit) (p c k : Nat) (hk : k ≠ p) :
    (attachChild arena p c)[k]? = arena[k]? := by
  unfold attachChild
  cases h : arena[p]? with
  | none => rfl
  | some cp => simp [List.getElem?_set_ne (Ne.symm hk)]

theorem attachChild_getElem?_self (arena : List Commit) (p c : Nat) (cp : Commit)
    (hp : arena[p]? = some cp) :
    (attachChild arena p c)[p]? = some { cp with children := cp.children ++ [c] } := by
  unfold attachChild
  rw [hp]
  have hlt : p < arena.length := by
    by_contra hge
    rw [List.getElem?_eq_none (Nat.le_of_not_lt hge)] at hp
    exact Option.noConfusion hp
  simp [List.getElem?_set_self, hlt]

theorem newArena_length (arena : List Commit) (head : Option Nat) (c : Commit) :
    (newArena arena head c).length = arena.length + 1 := by
  cases head with
  | none => simp [newArena]
  | some h => simp [newArena, attachChild_length]

theorem newArena_getElem?_new (arena : List Commit) (head : Option Nat) (c : Commit) :
    (newArena arena head c)[arena.length]? = some c := by
  cases head with
  | none =>
    rw [newArena, List.getElem?_append_right (Nat.le_refl _)]
    simp
  | some h =>
    rw [newArena, List.getElem?_append_right (by rw [attachChild_length]),
      attachChild_length]
    simp

theorem newArena_getElem?_parent (arena : List Commit) (h : Nat) (c : Commit)
    (cp : Commit) (hp : arena[h]? = some cp) :
    (newArena arena (some h) c)[h]? =
      some { cp with children := cp.children ++ [arena.length] } := by
  have hlt : h < arena.length := by
    by_contra hge
    rw [List.getElem?_eq_none (Nat.le_of_not_lt hge)] at hp
    exact Option.noConfusion hp
  rw [newArena,
    List.getElem?_append_left (by rw [attachChild_length]; exact hlt)]
  exact attachChild_getElem?_self arena h arena.length cp hp

theorem newArena_getElem?_old (arena : List Commit) (head : Option Nat)
    (c : Commit) (k : Nat) (hk : k < arena.length) (hne : head ≠ some k) :
    (newArena arena head c)[k]? = arena[k]? := by
  cases head with
  | none =>
    rw [newArena, List.getElem?_append_left hk]
  | some h =>
    rw [newArena, List.getElem?_append_left (by rw [attachChild_length]; exact hk)]
    exact attachChild_getElem?_ne arena h arena.length k
      (fun e => hne (by rw [e]))

/-- C4: commit on an initialized repository (with a valid active branch)
fails exactly when the staging area is empty; on success it appends a
new commit whose snapshot is a copy of the staging area, attaches it as
a child of the previous head of the active branch when there is one,
advances the active branch head to it, pushes it on the undo stack,
clears the redo stack and empties the staging area. -/
theorem c4_commit_spec (s : MiniGitState) (message ts : String) (i : Nat) (b : Branch)
    (hinit : s.initialized = true) (hact : s.active = some i)
    (hb : s.branches[i]? = some b)
    (hbh : ∀ h, b.head = some h → h < s.arena.length) :
    (s.staging_area.files = [] →
      commit_files s message ts =
        some (s, ⟨false, "Nothing to commit. Use \x27add\x27 first."⟩)) ∧
    (s.staging_area.files ≠ [] →
      ∃ s' rr, commit_files s message ts = some (s', rr) ∧ rr.success = true ∧
        s'.arena.length = s.arena.length + 1 ∧
        s'.arena[s.arena.length]? =
          some ⟨generate_hash (s.staging_area.files.foldl
                  (fun racc f => racc ++ f.content) (message ++ ts)),
                message, b.head, [], s.staging_area⟩ ∧
        (∀ h, b.head = some h → ∃ c, s.arena[h]? = some c ∧
          s'.arena[h]? = some { c with children := c.children ++ [s.arena.length] }) ∧
        s'.branches = s.branches.set i { b with head := some s.arena.length } ∧
        s'.active = s.active ∧
        s'.undo_stack = s.arena.length :: s.undo_stack ∧
        s'.redo_stack = [] ∧
        s'.staging_area = (⟨[]⟩ : FileState) ∧
        s'.working_files = s.working_files) := by
  have hinit' : ¬ (¬ s.initialized = true) := by simp [hinit]
  constructor
  · intro hemp
    simp only [commit_files, FileState.file_count, hemp, List.length_nil,
      if_neg hinit', if_pos rfl]
    rfl
  · intro hne
    have hcnt : ¬ (s.staging_area.file_count = 0) := by
      simpa [FileState.file_count, List.length_eq_zero] using hne
    simp only [commit_files, if_neg hinit', if_neg hcnt, hact, hb]
    refine ⟨_, _, rfl, rfl, ?_, ?_, ?_, rfl, rfl, rfl, rfl, rfl, rfl⟩
    · exact newArena_length _ _ _
    · rw [newArena_getElem?_new, FileState.copy_eq]
    · intro h hh
      have hlt : h < s.arena.length := hbh h hh
      obtain ⟨c, hc⟩ : ∃ c, s.arena[h]? = some c := by
        rw [List.getElem?_eq_getElem hlt]
        exact ⟨_, rfl⟩
      refine ⟨c, hc, ?_⟩
      rw [hh]
      exact newArena_getElem?_parent s.arena h _ c hc

/-- Witness for C4: a concrete initialized single-branch state with one
staged file; commit succeeds with all postconditions, and the same state
with an emptied staging area fails. -/
theorem c4_commit_spec_witness :
    ∃ s : MiniGitState, s.initialized = true ∧ s.active = some 0 ∧
      s.branches[0]? = some ⟨"main", none⟩ ∧
      s.staging_area.files ≠ [] ∧
      ∃ s' rr, commit_files s "m" "t" = some (s', rr) ∧ rr.success = true := by
  refine ⟨{ initState with
              branches := [⟨"main", none⟩], active := some 0,
              initialized := true,
              staging_area := ⟨[⟨"a", "x"⟩]⟩,
              working_files := ⟨[⟨"a", "x"⟩]⟩ }, rfl, rfl, rfl, by decide, ?_⟩
  have hmain := (c4_commit_spec { initState with
              branches := [⟨"main", none⟩], active := some 0,
              initialized := true,
              staging_area := ⟨[⟨"a", "x"⟩]⟩,
              working_files := ⟨[⟨"a", "x"⟩]⟩ } "m" "t" 0 ⟨"main", none⟩ rfl rfl rfl
    (by intro h hh; exact Option.noConfusion hh)).2 (by decide)
  obtain ⟨s', rr, heq, hsucc, _⟩ := hmain
  exact ⟨s', rr, heq, hsucc⟩

/-- C6: checkout on an initialized repository fails exactly when no
branch with the given name exists; on success the first branch with that
name becomes active, the working files become the content of the head
snapshot (or empty when the head is null), the staging area is emptied
unconditionally, and the branch list, commit arena and the undo and redo
stacks are untouched. -/
theorem c6_checkout_spec (s : MiniGitState) (name : String)
    (hinit : s.initialized = true)
    (hv : ∀ j b h, find_idx s.branches name = some j → s.branches[j]? = some b →
      b.head = some h → h < s.arena.length) :
    (find_idx s.branches name = none →
      checkout_branch s name =
        some (s, ⟨false, "Branch \x27" ++ name ++ "\x27 not found."⟩)) ∧
    (∀ j b, find_idx s.branches name = some j → s.branches[j]? = some b →
      ∃ s' rr, checkout_branch s name = some (s', rr) ∧ rr.success = true ∧
        s'.active = some j ∧
        (∀ h c, b.head = some h → s.arena[h]? = some c →
          s'.working_files = c.snapshot) ∧
        (b.head = none → s'.working_files = (⟨[]⟩ : FileState)) ∧
        s'.staging_area = (⟨[]⟩ : FileState) ∧
        s'.branches = s.branches ∧ s'.arena = s.arena ∧
        s'.undo_stack = s.undo_stack ∧ s'.redo_stack = s.redo_stack) := by
  have hinit' : ¬ (¬ s.initialized = true) := by simp [hinit]
  constructor
  · intro hnone
    simp only [checkout_branch, if_neg hinit', hnone]
  · intro j b hj hb
    simp only [checkout_branch, if_neg hinit', hj, hb]
    cases hh : b.head with
    | none =>
      dsimp only
      refine ⟨_, _, rfl, rfl, rfl, ?_, fun _ => rfl, rfl, rfl, rfl, rfl, rfl⟩
      intro h c hh' _
      exact Option.noConfusion hh'
    | some h =>
      have hlt : h < s.arena.length := hv j b h hj hb hh
      obtain ⟨c, hc⟩ : ∃ c, s.arena[h]? = some c := by
        rw [List.getElem?_eq_getElem hlt]; exact ⟨_, rfl⟩
      dsimp only
      rw [hc]
      refine ⟨_, _, rfl, rfl, rfl, ?_, ?_, rfl, rfl, rfl, rfl, rfl⟩
      · intro h' c' hh' hc'
        injection hh' with e
        subst e
        rw [hc] at hc'
        injection hc' with e'
        subst e'
        exact FileState.copy_eq c.snapshot
      · intro habs
        exact Option.noConfusion habs

/-- Witness for C6: a two-branch state; checking out the second branch
succeeds and restores its head snapshot, while a missing name fails. -/
theorem c6_checkout_spec_witness :
    ∃ s : MiniGitState, s.initialized = true ∧
      find_idx s.branches "feature" = some 1 ∧
      s.branches[1]? = some ⟨"feature", some 0⟩ ∧
      ∃ s' rr, checkout_branch s "feature" = some (s', rr) ∧ rr.success = true := by
  refine ⟨{ initState with
              branches := [⟨"main", none⟩, ⟨"feature", some 0⟩],
              active := some 0, initialized := true,
              arena := [⟨"c0", "m0", none, [], ⟨[⟨"a", "x"⟩]⟩⟩] },
    rfl, rfl, rfl, ?_⟩
  have hmain := (c6_checkout_spec { initState with
              branches := [⟨"main", none⟩, ⟨"feature", some 0⟩],
              active := some 0, initialized := true,
              arena := [⟨"c0", "m0", none, [], ⟨[⟨"a", "x"⟩]⟩⟩] } "feature" rfl
    (by
      intro j b h hj hb hh
      obtain rfl : (1 : Nat) = j := by
        have h1 : (some 1 : Option Nat) = some j := hj
        injection h1
      obtain rfl : (⟨"feature", some 0⟩ : Branch) = b := by
        have h2 : (some (⟨"feature", some 0⟩ : Branch) : Option Branch) = some b := hb
        injection h2
      obtain rfl : (0 : Nat) = h := by
        have h3 : (some 0 : Option Nat) = some h := hh
        injection h3
      decide)).2 1 ⟨"feature", some 0⟩ rfl rfl
  obtain ⟨s', rr, heq, hsucc, _⟩ := hmain
  exact ⟨s', rr, heq, hsucc⟩

theorem find?_addFileList (l : List File) (name content m : String) :
    (addFileList l name content).find? (fun f => f.name = m) =
      if m = name then some ⟨name, content⟩
      else l.find? (fun f => f.name = m) := by
  induction l with
  | nil =>
    simp only [addFileList]
    by_cases h : m = name
    · subst h
      rw [if_pos rfl, List.find?_cons_of_pos _ (by simp)]
    · rw [if_neg h, List.find?_cons_of_neg _ (by simpa using fun e => h e.symm)]
  | cons f rest ih =>
    simp only [addFileList]
    by_cases hf : f.name = name
    · rw [if_pos hf]
      by_cases hm : m = name
      · subst hm
        rw [if_pos rfl, List.find?_cons_of_pos _ (by simp [hf])]
        simp [hf]
      · rw [if_neg hm,
          List.find?_cons_of_neg _ (by simp; intro e; exact hm (e.symm.trans hf)),
          List.find?_cons_of_neg _ (by simp; intro e; exact hm (e.symm.trans hf))]
    · rw [if_neg hf]
      by_cases hp : f.name = m
      · have hm : ¬ (m = name) := fun e => hf (hp.trans e)
        rw [if_neg hm, List.find?_cons_of_pos _ (by simp [hp]),
          List.find?_cons_of_pos _ (by simp [hp])]
      · rw [List.find?_cons_of_neg _ (by simp [hp])]
        rw [ih]
        by_cases hm : m = name
        · rw [if_pos hm, if_pos hm]
        · rw [if_neg hm, if_neg hm, List.find?_cons_of_neg _ (by simp [hp])]

theorem get_file_add_file (fs : FileState) (name content m : String) :
    (fs.add_file name content).get_file m =
      if m = name then some ⟨name, content⟩ else fs.get_file m :=
  find?_addFileList fs.files name content m

theorem foldAdd_get_file_not_mem (l : List File) :
    ∀ (base : FileState) (n : String), (∀ f ∈ l, f.name ≠ n) →
    (foldAdd base l).get_file n = base.get_file n := by
  induction l with
  | nil => intro base n _; rfl
  | cons f rest ih =>
    intro base n h
    show (foldAdd (base.add_file f.name f.content) rest).get_file n = _
    rw [ih _ _ (fun g hg => h g (List.mem_cons_of_mem _ hg))]
    rw [get_file_add_file,
      if_neg (fun e => h f (List.mem_cons_self _ _) e.symm)]

theorem foldAdd_get_file_mem (l : List File) :
    ∀ (base : FileState), (l.map File.name).Nodup → ∀ f : File, f ∈ l →
    (foldAdd base l).get_file f.name = some ⟨f.name, f.content⟩ := by
  induction l with
  | nil => intro base _ f hf; cases hf
  | cons g rest ih =>
    intro base hnd f hf
    rw [List.map_cons] at hnd
    obtain ⟨h1, h2⟩ := List.nodup_cons.mp hnd
    show (foldAdd (base.add_file g.name g.content) rest).get_file f.name = _
    rcases List.mem_cons.mp hf with rfl | hf'
    · rw [foldAdd_get_file_not_mem _ _ _
        (fun f' hf' e => h1 (by rw [← e]; exact List.mem_map_of_mem File.name hf'))]
      rw [get_file_add_file, if_pos rfl]
    · exact ih _ h2 f hf'

/-- C1: for a merge of source branch B into the active branch A where B
exists, differs from A and has a non-null head: the merge succeeds, a
merge commit is appended, every filename of the source head snapshot
appears in its snapshot with the source content (source wins on name
collisions), and every filename of the active head snapshot absent from
the source head snapshot is preserved unchanged. -/
theorem c1_merge_source_wins (s : MiniGitState) (bname ts : String)
    (i j hs : Nat) (ab src : Branch) (srcHead : Commit)
    (hinit : s.initialized = true)
    (hfind : find_idx s.branches bname = some j)
    (hact : s.active = some i) (hne : i ≠ j)
    (hsrc : s.branches[j]? = some src) (hab : s.branches[i]? = some ab)
    (hsh : src.head = some hs) (hshc : s.arena[hs]? = some srcHead)
    (hnodup : (srcHead.snapshot.files.map File.name).Nodup)
    (habh : ∀ h, ab.head = some h → h < s.arena.length) :
    ∃ s' rr m, merge_branch s bname ts = some (s', rr) ∧ rr.success = true ∧
      s'.arena[s.arena.length]? = some m ∧
      (∀ n f, srcHead.snapshot.get_file n = some f →
        m.snapshot.get_file n = some ⟨n, f.content⟩) ∧
      (∀ h c, ab.head = some h → s.arena[h]? = some c →
        ∀ n f, c.snapshot.get_file n = some f →
          srcHead.snapshot.get_file n = none →
          m.snapshot.get_file n = some f) := by
  have hinit' : ¬ (¬ s.initialized = true) := by simp [hinit]
  have hne' : ¬ (s.active = some j) := by
    rw [hact]
    intro e
    injection e with e'
    exact hne e'
  have hne2 : ¬ ((some i : Option Nat) = some j) := by
    intro e
    injection e with e'
    exact hne e'
  simp only [merge_branch, if_neg hinit', hfind, if_neg hne', if_neg hne2,
    hsrc, hsh, hact, hab, hshc]
  have hwins : ∀ (base : FileState) n f, srcHead.snapshot.get_file n = some f →
      (foldAdd base srcHead.snapshot.files).get_file n = some ⟨n, f.content⟩ := by
    intro base n f hget
    have hmem : f ∈ srcHead.snapshot.files := List.mem_of_find?_eq_some hget
    have hname : f.name = n := by
      have := List.find?_some hget
      simpa using this
    have hkey := foldAdd_get_file_mem srcHead.snapshot.files base hnodup f hmem
    rw [hname] at hkey
    exact hkey
  have hpres : ∀ (base : FileState) n f, base.get_file n = some f →
      srcHead.snapshot.get_file n = none →
      (foldAdd base srcHead.snapshot.files).get_file n = some f := by
    intro base n f hget hnone
    have hno : ∀ g ∈ srcHead.snapshot.files, g.name ≠ n := by
      intro g hg e
      have := List.find?_eq_none.mp hnone g hg
      simp [e] at this
    rw [foldAdd_get_file_not_mem _ _ _ hno, hget]
  cases hh : ab.head with
  | none =>
    rw [show headSnapshot s.arena none = some ⟨[]⟩ from rfl]
    dsimp only
    refine ⟨_, _, ⟨generate_hash ("merge:" ++ bname ++ ts),
      "Merge branch \x27" ++ bname ++ "\x27 into " ++ ab.name, none, [],
      foldAdd ⟨[]⟩ srcHead.snapshot.files⟩, rfl, rfl, ?_, ?_, ?_⟩
    · simp only [newArena]
      rw [List.getElem?_append_right (Nat.le_refl _)]
      simp
    · intro n f hget
      exact hwins _ n f hget
    · intro h c hh' _
      exact Option.noConfusion hh'
  | some h =>
    have hlt : h < s.arena.length := habh h hh
    obtain ⟨c, hc⟩ : ∃ c, s.arena[h]? = some c := by
      rw [List.getElem?_eq_getElem hlt]; exact ⟨_, rfl⟩
    rw [show headSnapshot s.arena (some h) =
      (s.arena[h]?).map (fun c => c.snapshot.copy) from rfl, hc]
    dsimp only [Option.map_some']
    refine ⟨_, _, ⟨generate_hash ("merge:" ++ bname ++ ts),
      "Merge branch \x27" ++ bname ++ "\x27 into " ++ ab.name, some h, [],
      foldAdd c.snapshot.copy srcHead.snapshot.files⟩, rfl, rfl, ?_, ?_, ?_⟩
    · simp only [newArena]
      rw [List.getElem?_append_right (by rw [attachChild_length]),
        attachChild_length]
      simp
    · intro n f hget
      exact hwins _ n f hget
    · intro h' c' hh' hc'
      injection hh' with e
      subst e
      rw [hc] at hc'
      injection hc' with e'
      subst e'
      intro n f hget hnone
      refine hpres _ n f ?_ hnone
      rw [FileState.copy_eq]
      exact hget

/-- Witness for C1: a concrete state with branches main (head commit 0,
files a and c) and feature (head commit 1, files b and c); merging
feature into main keeps a, takes b, and overwrites c with the source
content. -/
theorem c1_merge_source_wins_witness :
    ∃ s' rr m,
      merge_branch { initState with
          branches := [⟨"main", some 0⟩, ⟨"feature", some 1⟩],
          active := some 0, initialized := true,
          arena := [⟨"c0", "m0", none, [], ⟨[⟨"a", "1"⟩, ⟨"c", "old"⟩]⟩⟩,
                    ⟨"c1", "m1", none, [], ⟨[⟨"b", "2"⟩, ⟨"c", "new"⟩]⟩⟩],
          root_commit := some 0 } "feature" "t" = some (s', rr) ∧
      rr.success = true ∧
      (({ initState with
          branches := [⟨"main", some 0⟩, ⟨"feature", some 1⟩],
          active := some 0, initialized := true,
          arena := [⟨"c0", "m0", none, [], ⟨[⟨"a", "1"⟩, ⟨"c", "old"⟩]⟩⟩,
                    ⟨"c1", "m1", none, [], ⟨[⟨"b", "2"⟩, ⟨"c", "new"⟩]⟩⟩],
          root_commit := some 0 } : MiniGitState).arena.length = 2) ∧
      s'.arena[2]? = some m ∧
      m.snapshot.get_file "b" = some ⟨"b", "2"⟩ ∧
      m.snapshot.get_file "c" = some ⟨"c", "new"⟩ ∧
      m.snapshot.get_file "a" = some ⟨"a", "1"⟩ := by
  have hmain := c1_merge_source_wins { initState with
          branches := [⟨"main", some 0⟩, ⟨"feature", some 1⟩],
          active := some 0, initialized := true,
          arena := [⟨"c0", "m0", none, [], ⟨[⟨"a", "1"⟩, ⟨"c", "old"⟩]⟩⟩,
                    ⟨"c1", "m1", none, [], ⟨[⟨"b", "2"⟩, ⟨"c", "new"⟩]⟩⟩],
          root_commit := some 0 } "feature" "t" 0 1 1
      ⟨"main", some 0⟩ ⟨"feature", some 1⟩
      ⟨"c1", "m1", none, [], ⟨[⟨"b", "2"⟩, ⟨"c", "new"⟩]⟩⟩
      rfl rfl rfl (by decide) rfl rfl rfl rfl (by decide)
      (by
        intro h hh
        have h1 : (some 0 : Option Nat) = some h := hh
        injection h1 with e
        subst e
        decide)
  obtain ⟨s', rr, m, heq, hsucc, hm, hwins, hpres⟩ := hmain
  refine ⟨s', rr, m, heq, hsucc, rfl, hm, ?_, ?_, ?_⟩
  · exact hwins "b" ⟨"b", "2"⟩ rfl
  · exact hwins "c" ⟨"c", "new"⟩ rfl
  · exact hpres 0 ⟨"c0", "m0", none, [], ⟨[⟨"a", "1"⟩, ⟨"c", "old"⟩]⟩⟩ rfl rfl
      "a" ⟨"a", "1"⟩ rfl rfl

theorem attachChild_parent (arena : List Commit) (p c k : Nat) :
    ((attachChild arena p c)[k]?).map Commit.parent =
      (arena[k]?).map Commit.parent := by
  by_cases hk : k = p
  · subst hk
    cases hp : arena[k]? with
    | none => simp [attachChild, hp]
    | some cp => simp [attachChild_getElem?_self _ _ _ _ hp, hp]
  · rw [attachChild_getElem?_ne _ _ _ _ hk]

theorem newArena_parent (arena : List Commit) (head : Option Nat) (nc : Commit)
    (k : Nat) (hk : k < arena.length) :
    ((newArena arena head nc)[k]?).map Commit.parent =
      (arena[k]?).map Commit.parent := by
  cases head with
  | none => rw [newArena, List.getElem?_append_left hk]
  | some h =>
    rw [newArena,
      List.getElem?_append_left (by rw [attachChild_length]; exact hk)]
    exact attachChild_parent arena h arena.length k

theorem newArena_hpar (arena : List Commit) (head : Option Nat) (nc : Commit)
    (hold : ∀ (k : Nat) (c : Commit) (p : Nat), arena[k]? = some c →
      c.parent = some p → p < arena.length)
    (hnc : ∀ p : Nat, nc.parent = some p → p < arena.length) :
    ∀ (k : Nat) (c : Commit) (p : Nat), (newArena arena head nc)[k]? = some c →
      c.parent = some p → p < (newArena arena head nc).length := by
  intro k c p hk hp
  rw [newArena_length]
  rcases Nat.lt_trichotomy k arena.length with hklt | hkeq | hkgt
  · have hmap := newArena_parent arena head nc k hklt
    rw [hk] at hmap
    cases harena : arena[k]? with
    | none =>
      rw [harena] at hmap
      exact absurd hmap (by simp)
    | some c0 =>
      rw [harena] at hmap
      simp only [Option.map_some'] at hmap
      injection hmap with e
      rw [e] at hp
      exact Nat.lt_succ_of_lt (hold k c0 p harena hp)
  · subst hkeq
    rw [newArena_getElem?_new] at hk
    injection hk with e
    subst e
    exact Nat.lt_succ_of_lt (hnc p hp)
  · rw [List.getElem?_eq_none (by rw [newArena_length]; omega)] at hk
    exact Option.noConfusion hk

theorem acinv_step (s : MiniGitState) (op : Op) (s' : MiniGitState) (r : OpResult)
    (hinv : ACInv s) (hop : isAddCommit op = true)
    (h : step s op = some (s', r)) : ACInv s' := by
  obtain ⟨h1, h2, h3, h4, h5⟩ := hinv
  cases op with
  | add f c =>
    simp only [step, add_file_op] at h
    rw [if_pos h1] at h
    injection h with h'
    injection h' with hs hr
    subst hs
    exact ⟨h1, h2, h3, h4, h5⟩
  | commit m ts =>
    simp only [step, commit_files] at h
    rw [if_neg (by simp [h1])] at h
    by_cases hemp : s.staging_area.file_count = 0
    · rw [if_pos hemp] at h
      injection h with h'
      injection h' with hs hr
      subst hs
      exact ⟨h1, h2, h3, h4, h5⟩
    · rw [if_neg hemp, h2] at h
      try dsimp only at h
      rw [h3] at h
      simp only [List.getElem?_cons_zero] at h
      try dsimp only at h
      injection h with h'
      injection h' with hs hr
      subst hs
      refine ⟨h1, rfl, ?_, ?_, ?_⟩
      · simp
      · intro c hc
        rw [newArena_length]
        rcases List.mem_cons.mp hc with rfl | hc'
        · exact Nat.lt_succ_self _
        · exact Nat.lt_succ_of_lt (h4 c hc')
      · exact newArena_hpar s.arena s.undo_stack.head? _ h5
          (by
            intro p hp
            dsimp only at hp
            exact h4 p (List.mem_of_mem_head? (Option.mem_def.mpr hp)))
  | init => simp [isAddCommit] at hop
  | branch n => simp [isAddCommit] at hop
  | checkout n => simp [isAddCommit] at hop
  | merge b ts => simp [isAddCommit] at hop
  | undo => simp [isAddCommit] at hop
  | redo => simp [isAddCommit] at hop
  | revert cid ts => simp [isAddCommit] at hop
  | diff f => simp [isAddCommit] at hop
  | status => simp [isAddCommit] at hop

theorem acinv_run (ops : List Op) :
    ∀ s s', (∀ op ∈ ops, isAddCommit op = true) → ACInv s →
      runO s ops = some s' → ACInv s' := by
  induction ops with
  | nil =>
    intro s s' _ hinv h
    injection h with e
    subst e
    exact hinv
  | cons op rest ih =>
    intro s s' hall hinv h
    rw [runO] at h
    cases hstep : step s op with
    | none =>
      rw [hstep] at h
      exact Option.noConfusion h
    | some p =>
      rw [hstep] at h
      exact ih p.1 s' (fun o ho => hall o (List.mem_cons_of_mem _ ho))
        (acinv_step s op p.1 p.2 hinv (hall op (List.mem_cons_self _ _)) hstep) h

theorem acinv_initial (s1 : MiniGitState) (r : OpResult)
    (h : init_repo initState = some (s1, r)) : ACInv s1 := by
  have h' : (some ({ initState with
      branches := [⟨"main", none⟩], active := some 0, initialized := true },
      (⟨true, "Initialized empty MiniGit repository."⟩ : OpResult)) :
      Option (MiniGitState × OpResult)) = some (s1, r) := h
  injection h' with h''
  injection h'' with hs hr
  subst hs
  refine ⟨rfl, rfl, rfl, ?_, ?_⟩
  · intro c hc
    cases hc
  · intro k c p hk
    simp [initState] at hk

/-- C2 (amended): for every state reached by init followed by any
sequence of add/commit requests, with a nonempty undo stack, undo
followed immediately by redo restores the branch list (hence the exact
active branch head), the active pointer, both stacks, the staging area
and the arena exactly; the working files afterwards are a copy of the
snapshot of the restored head commit — not, in general, the pre-undo
working file set (see the counterexample). -/
theorem c2_undo_redo_head_restored (ops : List Op) (s : MiniGitState)
    (hops : ∀ op ∈ ops, isAddCommit op = true)
    (hrun : runO initState (Op.init :: ops) = some s)
    (hne : s.undo_stack ≠ []) :
    ∃ s1 r1 s2 r2, undo s = some (s1, r1) ∧ redo s1 = some (s2, r2) ∧
      r1.success = true ∧ r2.success = true ∧
      s2.branches = s.branches ∧ s2.active = s.active ∧
      s2.undo_stack = s.undo_stack ∧ s2.redo_stack = s.redo_stack ∧
      s2.arena = s.arena ∧ s2.staging_area = s.staging_area ∧
      ∃ t tc, s.undo_stack.head? = some t ∧ s.arena[t]? = some tc ∧
        s.branches = [⟨"main", some t⟩] ∧
        s2.working_files = tc.snapshot.copy := by
  have hinv : ACInv s := by
    rw [runO] at hrun
    cases hstep : step initState Op.init with
    | none =>
      rw [hstep] at hrun
      exact Option.noConfusion hrun
    | some p =>
      rw [hstep] at hrun
      have h0 : ACInv p.1 := acinv_initial p.1 p.2 (by simpa [step] using hstep)
      exact acinv_run ops p.1 s hops h0 hrun
  obtain ⟨h1, h2, h3, h4, h5⟩ := hinv
  have hninit : ¬ (¬ s.initialized = true) := by simp [h1]
  cases hu : s.undo_stack with
  | nil => exact absurd hu hne
  | cons t rest =>
    have htlt : t < s.arena.length := h4 t (hu ▸ List.mem_cons_self _ _)
    obtain ⟨tc, htc⟩ : ∃ tc, s.arena[t]? = some tc := by
      rw [List.getElem?_eq_getElem htlt]; exact ⟨_, rfl⟩
    have hbr : s.branches = [⟨"main", some t⟩] := by
      rw [h3, hu]
      rfl
    cases hp : tc.parent with
    | some p =>
      have hplt : p < s.arena.length := h5 t tc p htc hp
      obtain ⟨pc, hpc⟩ : ∃ pc, s.arena[p]? = some pc := by
        rw [List.getElem?_eq_getElem hplt]; exact ⟨_, rfl⟩
      have hundo : undo s =
          some ({ s with
                    undo_stack := rest,
                    redo_stack := t :: s.redo_stack,
                    branches := [⟨"main", some p⟩],
                    working_files := pc.snapshot.copy },
                ⟨true, "Undo: reverted to commit " ++ pc.commit_id⟩) := by
        simp only [MiniGit.undo, if_neg hninit, hu, htc, h2, hbr,
          List.getElem?_cons_zero, hp, hpc]
        rfl
      have hredo : redo { s with
                            undo_stack := rest,
                            redo_stack := t :: s.redo_stack,
                            branches := [⟨"main", some p⟩],
                            working_files := pc.snapshot.copy } =
          some ({ s with
                    undo_stack := t :: rest,
                    redo_stack := s.redo_stack,
                    branches := [⟨"main", some t⟩],
                    working_files := tc.snapshot.copy },
                ⟨true, "Redo: restored commit " ++ tc.commit_id ++ " — " ++
                  tc.message⟩) := by
        simp only [MiniGit.redo, if_neg hninit, htc, h2,
          List.getElem?_cons_zero]
        rfl
      refine ⟨_, _, _, _, hundo, hredo, rfl, rfl, ?_, rfl, rfl, rfl, rfl, rfl,
        t, tc, rfl, htc, hbr, rfl⟩
      rw [hbr]
    | none =>
      have hundo : undo s =
          some ({ s with
                    undo_stack := rest,
                    redo_stack := t :: s.redo_stack,
                    branches := [⟨"main", none⟩],
                    working_files := ⟨[]⟩ },
                ⟨true, "Undo: reverted to initial state (no commits)."⟩) := by
        simp only [MiniGit.undo, if_neg hninit, hu, htc, h2, hbr,
          List.getElem?_cons_zero, hp]
        rfl
      have hredo : redo { s with
                            undo_stack := rest,
                            redo_stack := t :: s.redo_stack,
                            branches := [⟨"main", none⟩],
                            working_files := ⟨[]⟩ } =
          some ({ s with
                    undo_stack := t :: rest,
                    redo_stack := s.redo_stack,
                    branches := [⟨"main", some t⟩],
                    working_files := tc.snapshot.copy },
                ⟨true, "Redo: restored commit " ++ tc.commit_id ++ " — " ++
                  tc.message⟩) := by
        simp only [MiniGit.redo, if_neg hninit, htc, h2,
          List.getElem?_cons_zero]
        rfl
      refine ⟨_, _, _, _, hundo, hredo, rfl, rfl, ?_, rfl, rfl, rfl, rfl, rfl,
        t, tc, rfl, htc, hbr, rfl⟩
      rw [hbr]

/-- Witness for C2 (amended): the concrete run init; add a=1; commit. -/
theorem c2_undo_redo_head_restored_witness :
    ∃ s : MiniGitState,
      runO initState [Op.init, Op.add "a" "1", Op.commit "m" "t"] = some s ∧
      s.undo_stack ≠ [] ∧
      ∃ s1 r1 s2 r2, undo s = some (s1, r1) ∧ redo s1 = some (s2, r2) ∧
        r1.success = true ∧ r2.success = true ∧
        s2.branches = s.branches ∧ s2.active = s.active ∧
        s2.undo_stack = s.undo_stack ∧ s2.redo_stack = s.redo_stack ∧
        s2.arena = s.arena := by
  obtain ⟨s, hs⟩ : ∃ s, runO initState
      [Op.init, Op.add "a" "1", Op.commit "m" "t"] = some s := ⟨_, rfl⟩
  have hne : s.undo_stack ≠ [] := by
    have he : (some { working_files := (⟨[⟨"a", "1"⟩]⟩ : FileState),
                      staging_area := (⟨[]⟩ : FileState),
                      branches := [⟨"main", some 0⟩], active := some 0,
                      undo_stack := [0], redo_stack := [],
                      arena := [⟨generate_hash "mt1", "m", none, [],
                                 ⟨[⟨"a", "1"⟩]⟩⟩],
                      root_commit := some 0, initialized := true } :
        Option MiniGitState) = some s := hs
    injection he with he'
    rw [← he']
    simp
  obtain ⟨s1, r1, s2, r2, h⟩ := c2_undo_redo_head_restored
    [Op.add "a" "1", Op.commit "m" "t"] s (by decide) hs hne
  exact ⟨s, hs, hne, s1, r1, s2, r2, h.1, h.2.1, h.2.2.1, h.2.2.2.1,
    h.2.2.2.2.1, h.2.2.2.2.2.1, h.2.2.2.2.2.2.1, h.2.2.2.2.2.2.2.1,
    h.2.2.2.2.2.2.2.2.1⟩

/-- Counterexample to C2 as stated: after init; add a=1; commit; add
b=2; commit, the working files hold both a and b, but undo followed by
redo leaves only the second snapshot (file b): the branch head is
restored exactly, the working file set is not. -/
theorem c2_undo_redo_roundtrip_cex :
    ∃ s s1 s2 : MiniGitState, ∃ r1 r2 : OpResult,
      runO initState
        [Op.init, Op.add "a" "1", Op.commit "m1" "t1",
         Op.add "b" "2", Op.commit "m2" "t2"] = some s ∧
      undo s = some (s1, r1) ∧ redo s1 = some (s2, r2) ∧
      r1.success = true ∧ r2.success = true ∧
      s2.branches = s.branches ∧
      s2.working_files ≠ s.working_files := by
  refine ⟨_, _, _, _, _, rfl, rfl, rfl, rfl, rfl, rfl, by decide⟩

theorem getElem?_some_lt {α : Type} (l : List α) (k : Nat) (a : α)
    (h : l[k]? = some a) : k < l.length := by
  by_contra hge
  rw [List.getElem?_eq_none (Nat.le_of_not_lt hge)] at h
  exact Option.noConfusion h

theorem newArena_graph (arena : List Commit) (head : Option Nat) (nc : Commit)
    (hP : ∀ (k : Nat) (c : Commit) (p : Nat), arena[k]? = some c →
      c.parent = some p → p < k)
    (hC : ∀ (k : Nat) (c : Commit) (j : Nat), arena[k]? = some c →
      j ∈ c.children → k < j ∧ ∃ cj, arena[j]? = some cj ∧ cj.parent = some k)
    (hPC : ∀ (k : Nat) (c : Commit) (p : Nat), arena[k]? = some c →
      c.parent = some p → ∃ cp, arena[p]? = some cp ∧ k ∈ cp.children)
    (hhead : ∀ h : Nat, head = some h → h < arena.length)
    (hncp : nc.parent = head) (hncc : nc.children = []) :
    (∀ (k : Nat) (c : Commit) (p : Nat), (newArena arena head nc)[k]? = some c →
      c.parent = some p → p < k) ∧
    (∀ (k : Nat) (c : Commit) (j : Nat), (newArena arena head nc)[k]? = some c →
      j ∈ c.children →
      k < j ∧ ∃ cj, (newArena arena head nc)[j]? = some cj ∧ cj.parent = some k) ∧
    (∀ (k : Nat) (c : Commit) (p : Nat), (newArena arena head nc)[k]? = some c →
      c.parent = some p →
      ∃ cp, (newArena arena head nc)[p]? = some cp ∧ k ∈ cp.children) := by
  cases head with
  | none =>
    have hlookup : ∀ (k : Nat) (c : Commit),
        (newArena arena none nc)[k]? = some c →
        (k < arena.length ∧ arena[k]? = some c) ∨
        (k = arena.length ∧ c = nc) := by
      intro k c hk
      rcases Nat.lt_trichotomy k arena.length with hlt | heq | hgt
      · rw [newArena, List.getElem?_append_left hlt] at hk
        exact Or.inl ⟨hlt, hk⟩
      · subst heq
        rw [newArena_getElem?_new] at hk
        injection hk with e
        exact Or.inr ⟨rfl, e.symm⟩
      · rw [List.getElem?_eq_none (by rw [newArena_length]; omega)] at hk
        exact Option.noConfusion hk
    have hold : ∀ (k : Nat) (c : Commit), k < arena.length →
        arena[k]? = some c → (newArena arena none nc)[k]? = some c := by
      intro k c hlt hk
      rw [newArena, List.getElem?_append_left hlt]
      exact hk
    refine ⟨?_, ?_, ?_⟩
    · intro k c p hk hp
      rcases hlookup k c hk with ⟨hlt, hk'⟩ | ⟨hkeq, hceq⟩
      · exact hP k c p hk' hp
      · subst hceq
        rw [hncp] at hp
        exact Option.noConfusion hp
    · intro k c j hk hj
      rcases hlookup k c hk with ⟨hlt, hk'⟩ | ⟨hkeq, hceq⟩
      · obtain ⟨hkj, cj, hcj, hcjp⟩ := hC k c j hk' hj
        exact ⟨hkj, cj, hold j cj (getElem?_some_lt _ _ _ hcj) hcj, hcjp⟩
      · subst hceq
        rw [hncc] at hj
        cases hj
    · intro k c p hk hp
      rcases hlookup k c hk with ⟨hlt, hk'⟩ | ⟨hkeq, hceq⟩
      · obtain ⟨cp, hcp, hmem⟩ := hPC k c p hk' hp
        exact ⟨cp, hold p cp (getElem?_some_lt _ _ _ hcp) hcp, hmem⟩
      · subst hceq
        rw [hncp] at hp
        exact Option.noConfusion hp
  | some h =>
    have hhlt : h < arena.length := hhead h rfl
    obtain ⟨ch, hch⟩ : ∃ ch, arena[h]? = some ch := by
      rw [List.getElem?_eq_getElem hhlt]; exact ⟨_, rfl⟩
    have hmod := newArena_getElem?_parent arena h nc ch hch
    have hnew := newArena_getElem?_new arena (some h) nc
    have hlookup : ∀ (k : Nat) (c : Commit),
        (newArena arena (some h) nc)[k]? = some c →
        (k < arena.length ∧ k ≠ h ∧ arena[k]? = some c) ∨
        (k = h ∧ c = { ch with children := ch.children ++ [arena.length] }) ∨
        (k = arena.length ∧ c = nc) := by
      intro k c hk
      rcases Nat.lt_trichotomy k arena.length with hlt | heq | hgt
      · by_cases hkh : k = h
        · subst hkh
          rw [hmod] at hk
          injection hk with e
          exact Or.inr (Or.inl ⟨rfl, e.symm⟩)
        · rw [newArena_getElem?_old arena (some h) nc k hlt
            (fun e => hkh (by injection e with e'; exact e'.symm))] at hk
          exact Or.inl ⟨hlt, hkh, hk⟩
      · subst heq
        rw [hnew] at hk
        injection hk with e
        exact Or.inr (Or.inr ⟨rfl, e.symm⟩)
      · rw [List.getElem?_eq_none (by rw [newArena_length]; omega)] at hk
        exact Option.noConfusion hk
    have hkeep : ∀ (j : Nat) (cj : Commit), arena[j]? = some cj →
        ∃ cj', (newArena arena (some h) nc)[j]? = some cj' ∧
          cj'.parent = cj.parent ∧ cj.children ⊆ cj'.children := by
      intro j cj hcj
      have hjlt : j < arena.length := getElem?_some_lt _ _ _ hcj
      by_cases hjh : j = h
      · subst hjh
        rw [hch] at hcj
        injection hcj with e
        subst e
        exact ⟨_, hmod, rfl, List.subset_append_left _ _⟩
      · refine ⟨cj, ?_, rfl, List.Subset.refl _⟩
        rw [newArena_getElem?_old arena (some h) nc j hjlt
          (fun e => hjh (by injection e with e'; exact e'.symm))]
        exact hcj
    refine ⟨?_, ?_, ?_⟩
    · intro k c p hk hp
      rcases hlookup k c hk with ⟨hlt, hkh, hk'⟩ | ⟨hkeq, hceq⟩ | ⟨hkeq, hceq⟩
      · exact hP k c p hk' hp
      · subst hkeq hceq
        exact hP _ ch p hch hp
      · subst hkeq hceq
        rw [hncp] at hp
        injection hp with e
        omega
    · intro k c j hk hj
      rcases hlookup k c hk with ⟨hlt, hkh, hk'⟩ | ⟨hkeq, hceq⟩ | ⟨hkeq, hceq⟩
      · obtain ⟨hkj, cj, hcj, hcjp⟩ := hC k c j hk' hj
        obtain ⟨cj', hcj', hpar, _⟩ := hkeep j cj hcj
        exact ⟨hkj, cj', hcj', hpar.trans hcjp⟩
      · subst hkeq hceq
        rcases List.mem_append.mp hj with hjold | hjnew
        · obtain ⟨hkj, cj, hcj, hcjp⟩ := hC _ ch j hch hjold
          obtain ⟨cj', hcj', hpar, _⟩ := hkeep j cj hcj
          exact ⟨hkj, cj', hcj', hpar.trans hcjp⟩
        · rw [List.mem_singleton] at hjnew
          subst hjnew
          exact ⟨hhlt, nc, hnew, by rw [hncp]⟩
      · subst hkeq hceq
        rw [hncc] at hj
        cases hj
    · intro k c p hk hp
      rcases hlookup k c hk with ⟨hlt, hkh, hk'⟩ | ⟨hkeq, hceq⟩ | ⟨hkeq, hceq⟩
      · obtain ⟨cp, hcp, hmem⟩ := hPC k c p hk' hp
        obtain ⟨cp', hcp', _, hsub⟩ := hkeep p cp hcp
        exact ⟨cp', hcp', hsub hmem⟩
      · subst hkeq hceq
        obtain ⟨cp, hcp, hmem⟩ := hPC _ ch p hch hp
        obtain ⟨cp', hcp', _, hsub⟩ := hkeep p cp hcp
        exact ⟨cp', hcp', hsub hmem⟩
      · subst hkeq hceq
        rw [hncp] at hp
        injection hp with e
        subst e
        refine ⟨{ ch with children := ch.children ++ [arena.length] }, hmod, ?_⟩
        exact List.mem_append_right _ (List.mem_singleton.mpr rfl)

theorem getElem?_some_mem {α : Type} (l : List α) (k : Nat) (a : α)
    (h : l[k]? = some a) : a ∈ l := by
  have hk := getElem?_some_lt l k a h
  rw [List.getElem?_eq_getElem hk] at h
  injection h with e
  exact e ▸ List.getElem_mem hk

theorem treeinv_same (s s' : MiniGitState)
    (harena : s'.arena = s.arena) (hroot : s'.root_commit = s.root_commit)
    (hbr : s'.branches = s.branches) (hun : s'.undo_stack = s.undo_stack)
    (hrd : s'.redo_stack = s.redo_stack) (hinv : TreeInv s) : TreeInv s' := by
  obtain ⟨hP, hC, hPC, hR, hH, hU, hRd⟩ := hinv
  exact ⟨by rw [harena]; exact hP, by rw [harena]; exact hC,
    by rw [harena]; exact hPC, by rw [hroot, harena]; exact hR,
    by rw [hbr, harena]; exact hH, by rw [hun, harena]; exact hU,
    by rw [hrd, harena]; exact hRd⟩

/-- TreeInv is preserved by appending a fresh commit whose parent is a
valid head, updating the root on first commit, pointing branch i at the
new index, pushing it on the undo stack and clearing the redo stack:
the common mutation shape of commit, merge and revert. -/
theorem treeinv_extend (s : MiniGitState) (hinv : TreeInv s)
    (head : Option Nat) (nc : Commit) (i : Nat) (b : Branch)
    (hhead : ∀ hd : Nat, head = some hd → hd < s.arena.length)
    (hncp : nc.parent = head) (hncc : nc.children = [])
    (s' : MiniGitState)
    (harena : s'.arena = newArena s.arena head nc)
    (hroot : s'.root_commit = (match s.root_commit with
      | none => some s.arena.length
      | some r => some r) ∨ (s'.root_commit = s.root_commit ∧ head ≠ none))
    (hbr : s'.branches = s.branches.set i { b with head := some s.arena.length })
    (hun : s'.undo_stack = s.arena.length :: s.undo_stack)
    (hrd : s'.redo_stack = []) : TreeInv s' := by
  obtain ⟨hP, hC, hPC, hR, hH, hU, hRd⟩ := hinv
  obtain ⟨hP', hC', hPC'⟩ := newArena_graph s.arena head nc hP hC hPC hhead hncp hncc
  have hlen : s'.arena.length = s.arena.length + 1 := by
    rw [harena, newArena_length]
  refine ⟨?_, ?_, ?_, ?_, ?_, ?_, ?_⟩
  · rw [harena]; exact hP'
  · rw [harena]; exact hC'
  · rw [harena]; exact hPC'
  · rcases hroot with hroot | ⟨hroot, hne⟩
    · rw [hroot]
      rcases hR with ⟨hr0, hr1⟩ | hr
      · rw [hr0, hr1]
        exact Or.inr rfl
      · rw [hr]
        exact Or.inr rfl
    · rcases hR with ⟨hr0, hr1⟩ | hr
      · cases hhd : head with
        | none => exact absurd hhd hne
        | some hd =>
          have := hhead hd hhd
          rw [hr1] at this
          exact absurd this (by simp)
      · rw [hroot, hr]
        exact Or.inr rfl
  · intro b' hb' hd hbd
    rw [hlen]
    rw [hbr] at hb'
    rcases List.mem_or_eq_of_mem_set hb' with hb'' | hb''
    · exact Nat.lt_succ_of_lt (hH b' hb'' hd hbd)
    · subst hb''
      injection hbd with e
      omega
  · intro c hc
    rw [hlen]
    rw [hun] at hc
    rcases List.mem_cons.mp hc with rfl | hc'
    · exact Nat.lt_succ_self _
    · exact Nat.lt_succ_of_lt (hU c hc')
  · intro c hc
    rw [hrd] at hc
    cases hc

theorem treeinv_step (s : MiniGitState) (op : Op) (s' : MiniGitState)
    (r : OpResult) (hinv : TreeInv s) (h : step s op = some (s', r)) :
    TreeInv s' := by
  obtain ⟨hP, hC, hPC, hR, hH, hU, hRd⟩ := hinv
  cases op with
  | init =>
    simp only [step, init_repo] at h
    split at h
    · injection h with h'
      injection h' with hs hr
      subst hs
      exact ⟨hP, hC, hPC, hR, hH, hU, hRd⟩
    · injection h with h'
      injection h' with hs hr
      subst hs
      refine ⟨hP, hC, hPC, hR, ?_, hU, hRd⟩
      intro b hb hd hbd
      simp only [addBranch] at hb
      rcases List.mem_append.mp hb with hb' | hb'
      · exact hH b hb' hd hbd
      · rw [List.mem_singleton] at hb'
        subst hb'
        exact Option.noConfusion hbd
  | add f c =>
    simp only [step, add_file_op] at h
    split at h <;>
      (injection h with h'
       injection h' with hs hr
       subst hs)
    · exact treeinv_same s _ rfl rfl rfl rfl rfl ⟨hP, hC, hPC, hR, hH, hU, hRd⟩
    · exact ⟨hP, hC, hPC, hR, hH, hU, hRd⟩
  | commit m ts =>
    simp only [step, commit_files] at h
    split at h
    · injection h with h'
      injection h' with hs hr
      subst hs
      exact ⟨hP, hC, hPC, hR, hH, hU, hRd⟩
    · split at h
      · injection h with h'
        injection h' with hs hr
        subst hs
        exact ⟨hP, hC, hPC, hR, hH, hU, hRd⟩
      · split at h
        · exact Option.noConfusion h
        · rename_i i hi
          split at h
          · exact Option.noConfusion h
          · rename_i current hcur
            injection h with h'
            injection h' with hs hr
            subst hs
            refine treeinv_extend s ⟨hP, hC, hPC, hR, hH, hU, hRd⟩
              current.head _ i current ?_ rfl rfl _ rfl (Or.inl rfl) rfl rfl rfl
            intro hd hbd
            exact hH current (getElem?_some_mem _ _ _ hcur) hd hbd
  | branch n =>
    simp only [step, create_branch] at h
    split at h
    · injection h with h'
      injection h' with hs hr
      subst hs
      exact ⟨hP, hC, hPC, hR, hH, hU, hRd⟩
    · split at h
      · injection h with h'
        injection h' with hs hr
        subst hs
        exact ⟨hP, hC, hPC, hR, hH, hU, hRd⟩
      · split at h
        · exact Option.noConfusion h
        · rename_i i hi
          split at h
          · exact Option.noConfusion h
          · rename_i ab hab
            injection h with h'
            injection h' with hs hr
            subst hs
            refine ⟨hP, hC, hPC, hR, ?_, hU, hRd⟩
            intro b hb hd hbd
            simp only [addBranch] at hb
            rcases List.mem_append.mp hb with hb' | hb'
            · exact hH b hb' hd hbd
            · rw [List.mem_singleton] at hb'
              subst hb'
              exact hH ab (getElem?_some_mem _ _ _ hab) hd hbd
  | checkout n =>
    simp only [step, checkout_branch] at h
    split at h
    · injection h with h'
      injection h' with hs hr
      subst hs
      exact ⟨hP, hC, hPC, hR, hH, hU, hRd⟩
    · split at h
      · injection h with h'
        injection h' with hs hr
        subst hs
        exact ⟨hP, hC, hPC, hR, hH, hU, hRd⟩
      · split at h
        · exact Option.noConfusion h
        · split at h
          · split at h
            · exact Option.noConfusion h
            · injection h with h'
              injection h' with hs hr
              subst hs
              exact treeinv_same s _ rfl rfl rfl rfl rfl
                ⟨hP, hC, hPC, hR, hH, hU, hRd⟩
          · injection h with h'
            injection h' with hs hr
            subst hs
            exact treeinv_same s _ rfl rfl rfl rfl rfl
              ⟨hP, hC, hPC, hR, hH, hU, hRd⟩
  | merge b ts =>
    simp only [step, merge_branch] at h
    split at h
    · injection h with h'
      injection h' with hs hr
      subst hs
      exact ⟨hP, hC, hPC, hR, hH, hU, hRd⟩
    · split at h
      · injection h with h'
        injection h' with hs hr
        subst hs
        exact ⟨hP, hC, hPC, hR, hH, hU, hRd⟩
      · split at h
        · injection h with h'
          injection h' with hs hr
          subst hs
          exact ⟨hP, hC, hPC, hR, hH, hU, hRd⟩
        · split at h
          · exact Option.noConfusion h
          · split at h
            · injection h with h'
              injection h' with hs hr
              subst hs
              exact ⟨hP, hC, hPC, hR, hH, hU, hRd⟩
            · split at h
              · exact Option.noConfusion h
              · rename_i i hi
                split at h
                · exact Option.noConfusion h
                · rename_i ab hab
                  split at h
                  · exact Option.noConfusion h
                  · rename_i srcHead hsrcHead
                    split at h
                    · exact Option.noConfusion h
                    · rename_i base hbase
                      injection h with h'
                      injection h' with hs hr
                      subst hs
                      refine treeinv_extend s ⟨hP, hC, hPC, hR, hH, hU, hRd⟩
                        ab.head _ i ab ?_ rfl rfl _ rfl (Or.inl rfl) rfl rfl rfl
                      intro hd hbd
                      exact hH ab (getElem?_some_mem _ _ _ hab) hd hbd
  | undo =>
    simp only [step, MiniGit.undo] at h
    split at h
    · injection h with h'
      injection h' with hs hr
      subst hs
      exact ⟨hP, hC, hPC, hR, hH, hU, hRd⟩
    · split at h
      · injection h with h'
        injection h' with hs hr
        subst hs
        exact ⟨hP, hC, hPC, hR, hH, hU, hRd⟩
      · rename_i c rest hstack
        split at h
        · exact Option.noConfusion h
        · rename_i cc hcc
          split at h
          · exact Option.noConfusion h
          · rename_i i hi
            split at h
            · exact Option.noConfusion h
            · rename_i ab hab
              have hclen : c < s.arena.length :=
                hU c (by rw [hstack]; exact List.mem_cons_self _ _)
              split at h
              · rename_i p hp
                split at h
                · exact Option.noConfusion h
                · rename_i pc hpc
                  injection h with h'
                  injection h' with hs hr
                  subst hs
                  refine ⟨hP, hC, hPC, hR, ?_, ?_, ?_⟩
                  · intro b hb hd hbd
                    rcases List.mem_or_eq_of_mem_set hb with hb' | hb'
                    · exact hH b hb' hd hbd
                    · subst hb'
                      injection hbd with e
                      subst e
                      exact getElem?_some_lt _ _ _ hpc
                  · intro x hx
                    refine hU x ?_
                    rw [hstack]
                    exact List.mem_cons_of_mem _ hx
                  · intro x hx
                    rcases List.mem_cons.mp hx with rfl | hx'
                    · exact hclen
                    · exact hRd x hx'
              · injection h with h'
                injection h' with hs hr
                subst hs
                refine ⟨hP, hC, hPC, hR, ?_, ?_, ?_⟩
                · intro b hb hd hbd
                  rcases List.mem_or_eq_of_mem_set hb with hb' | hb'
                  · exact hH b hb' hd hbd
                  · subst hb'
                    exact Option.noConfusion hbd
                · intro x hx
                  refine hU x ?_
                  rw [hstack]
                  exact List.mem_cons_of_mem _ hx
                · intro x hx
                  rcases List.mem_cons.mp hx with rfl | hx'
                  · exact hclen
                  · exact hRd x hx'
  | redo =>
    simp only [step, MiniGit.redo] at h
    split at h
    · injection h with h'
      injection h' with hs hr
      subst hs
      exact ⟨hP, hC, hPC, hR, hH, hU, hRd⟩
    · split at h
      · injection h with h'
        injection h' with hs hr
        subst hs
        exact ⟨hP, hC, hPC, hR, hH, hU, hRd⟩
      · rename_i c rest hstack
        split at h
        · exact Option.noConfusion h
        · rename_i cc hcc
          split at h
          · exact Option.noConfusion h
          · rename_i i hi
            split at h
            · exact Option.noConfusion h
            · rename_i ab hab
              have hclen : c < s.arena.length :=
                hRd c (by rw [hstack]; exact List.mem_cons_self _ _)
              injection h with h'
              injection h' with hs hr
              subst hs
              refine ⟨hP, hC, hPC, hR, ?_, ?_, ?_⟩
              · intro b hb hd hbd
                rcases List.mem_or_eq_of_mem_set hb with hb' | hb'
                · exact hH b hb' hd hbd
                · subst hb'
                  injection hbd with e
                  subst e
                  exact hclen
              · intro x hx
                rcases List.mem_cons.mp hx with rfl | hx'
                · exact hclen
                · exact hU x hx'
              · intro x hx
                refine hRd x ?_
                rw [hstack]
                exact List.mem_cons_of_mem _ hx
  | revert cid ts =>
    simp only [step, MiniGit.revert] at h
    split at h
    · injection h with h'
      injection h' with hs hr
      subst hs
      exact ⟨hP, hC, hPC, hR, hH, hU, hRd⟩
    · split at h
      · exact Option.noConfusion h
      · rename_i i hi
        split at h
        · exact Option.noConfusion h
        · rename_i current hcur
          split at h
          · injection h with h'
            injection h' with hs hr
            subst hs
            exact ⟨hP, hC, hPC, hR, hH, hU, hRd⟩
          · rename_i hd hhd
            split at h
            · injection h with h'
              injection h' with hs hr
              subst hs
              exact ⟨hP, hC, hPC, hR, hH, hU, hRd⟩
            · rename_i tk htk
              split at h
              · exact Option.noConfusion h
              · rename_i tc htc
                injection h with h'
                injection h' with hs hr
                subst hs
                refine treeinv_extend s ⟨hP, hC, hPC, hR, hH, hU, hRd⟩
                  (some hd) _ i current ?_ rfl rfl _ rfl
                  (Or.inr ⟨rfl, fun e => Option.noConfusion e⟩) rfl rfl rfl
                intro hd2 hbd
                injection hbd with e
                subst e
                exact hH current (getElem?_some_mem _ _ _ hcur) hd hhd
  | diff f =>
    simp only [step, diff_file] at h
    (repeat' split at h) <;>
      first
        | exact Option.noConfusion h
        | (injection h with h'
           injection h' with hs hr
           subst hs
           exact ⟨hP, hC, hPC, hR, hH, hU, hRd⟩)
  | status =>
    simp only [step, get_status] at h
    (repeat' split at h) <;>
      first
        | exact Option.noConfusion h
        | (injection h with h'
           injection h' with hs hr
           subst hs
           exact ⟨hP, hC, hPC, hR, hH, hU, hRd⟩)

theorem treeinv_initState : TreeInv initState := by
  refine ⟨?_, ?_, ?_, Or.inl ⟨rfl, rfl⟩, ?_, ?_, ?_⟩ <;>
    (intros; simp_all [initState])

theorem treeinv_run (ops : List Op) :
    ∀ s s', TreeInv s → runO s ops = some s' → TreeInv s' := by
  induction ops with
  | nil =>
    intro s s' hinv h
    injection h with e
    subst e
    exact hinv
  | cons op rest ih =>
    intro s s' hinv h
    rw [runO] at h
    cases hstep : step s op with
    | none =>
      rw [hstep] at h
      exact Option.noConfusion h
    | some p =>
      rw [hstep] at h
      exact ih p.1 s' (treeinv_step s op p.1 p.2 hinv hstep) h

/-- C3 (amended): in every reachable repository state the commits form a
forest: every commit has at most one (optional) parent link, every
parent precedes its child in creation order - so the parent/children
links are acyclic - the links are mutually consistent in both
directions, a commit may accumulate several children, and root_commit is
the first commit ever created (index 0) as soon as any commit exists.
Not every commit is reachable from root_commit via children links: a
commit created while the active branch head is null starts a new tree
(see the counterexample), so the graph is a forest, not a single
tree. -/
theorem c3_commit_graph_forest (s : MiniGitState) (h : ReachableState s) :
    (∀ (k : Nat) (c : Commit) (p : Nat), s.arena[k]? = some c →
      c.parent = some p → p < k) ∧
    (∀ (k : Nat) (c : Commit) (j : Nat), s.arena[k]? = some c →
      j ∈ c.children →
      k < j ∧ ∃ cj, s.arena[j]? = some cj ∧ cj.parent = some k) ∧
    (∀ (k : Nat) (c : Commit) (p : Nat), s.arena[k]? = some c →
      c.parent = some p → ∃ cp, s.arena[p]? = some cp ∧ k ∈ cp.children) ∧
    ((s.root_commit = none ∧ s.arena = []) ∨ s.root_commit = some 0) := by
  obtain ⟨ops, hops⟩ := h
  have hinv := treeinv_run ops initState s treeinv_initState hops
  exact ⟨hinv.parent_lt, hinv.child_spec, hinv.parent_child, hinv.root_spec⟩

/-- Witness for C3 (amended): the state after init; add; commit is
reachable and satisfies the forest properties. -/
theorem c3_commit_graph_forest_witness :
    ∃ s : MiniGitState, ReachableState s ∧
      ((∀ (k : Nat) (c : Commit) (p : Nat), s.arena[k]? = some c →
        c.parent = some p → p < k) ∧
      (∀ (k : Nat) (c : Commit) (j : Nat), s.arena[k]? = some c →
        j ∈ c.children →
        k < j ∧ ∃ cj, s.arena[j]? = some cj ∧ cj.parent = some k) ∧
      (∀ (k : Nat) (c : Commit) (p : Nat), s.arena[k]? = some c →
        c.parent = some p → ∃ cp, s.arena[p]? = some cp ∧ k ∈ cp.children) ∧
      ((s.root_commit = none ∧ s.arena = []) ∨ s.root_commit = some 0)) := by
  refine ⟨_, ⟨[Op.init, Op.add "a" "x", Op.commit "m" "t"], rfl⟩, ?_⟩
  exact c3_commit_graph_forest _ ⟨[Op.init, Op.add "a" "x", Op.commit "m" "t"], rfl⟩

/-- Counterexample to C3 as stated: after init; add; commit; undo; add;
commit, the arena holds two commits ever created, root_commit is commit
0, but commit 1 has no parent and is not reachable from the root via
children links: the commits form a forest of two trees, not a single
tree rooted at root_commit. -/
theorem c3_single_tree_cex :
    ∃ s : MiniGitState, ReachableState s ∧ s.root_commit = some 0 ∧
      s.arena.length = 2 ∧
      (s.arena[1]?).map Commit.parent = some none ∧
      1 ∉ descendants s.arena s.arena.length [0] := by
  refine ⟨_, ⟨[Op.init, Op.add "a" "x", Op.commit "m1" "t1", Op.undo,
    Op.add "a" "y", Op.commit "m2" "t2"], rfl⟩, rfl, rfl, rfl, by decide⟩

theorem newArena_preserves (arena : List Commit) (head : Option Nat)
    (nc : Commit) (k : Nat) (ck : Commit) (hk : arena[k]? = some ck) :
    ∃ ck', (newArena arena head nc)[k]? = some ck' ∧
      ck'.commit_id = ck.commit_id ∧ ck'.message = ck.message ∧
      ck'.parent = ck.parent ∧ ck'.snapshot = ck.snapshot := by
  have hklt := getElem?_some_lt _ _ _ hk
  cases head with
  | none =>
    refine ⟨ck, ?_, rfl, rfl, rfl, rfl⟩
    rw [newArena, List.getElem?_append_left hklt]
    exact hk
  | some h =>
    by_cases hkh : k = h
    · subst hkh
      exact ⟨_, newArena_getElem?_parent arena k nc ck hk, rfl, rfl, rfl, rfl⟩
    · refine ⟨ck, ?_, rfl, rfl, rfl, rfl⟩
      rw [newArena_getElem?_old arena (some h) nc k hklt
        (fun e => hkh (by injection e with e'; exact e'.symm))]
      exact hk

theorem revertTarget_none_iff (s : MiniGitState) (hd : Nat) (cid : String) :
    revertTarget s hd cid = none ↔
      find_in_history s.arena s.arena.length (some hd) cid = none ∧
      (∀ r, s.root_commit = some r →
        dfsFind s.arena s.arena.length [r] cid = none) := by
  unfold revertTarget
  cases ht : find_in_history s.arena s.arena.length (some hd) cid <;>
    cases hr : s.root_commit <;> simp

/-- C5 (amended): on an initialized repository with a valid active
branch, revert fails exactly when the active head is null or the id is
found neither in the head's parent-chain ancestry nor (as fallback) by
DFS in the tree rooted at root_commit; on success a brand-new commit
node is appended (the old arena is untouched except that the head gains
a child), its snapshot is content-equal to the target's snapshot, it is
attached as a child of the current active head, the head advances to it,
and the id, message and snapshot of every previously existing commit
(the target and its descendants included) are unchanged.  Its id is
computed by hashing and may collide with the target's id (see the
counterexample), which is the only part of the original claim that
fails. -/
theorem c5_revert_spec (s : MiniGitState) (cid ts : String) (i : Nat) (b : Branch)
    (hinit : s.initialized = true) (hact : s.active = some i)
    (hb : s.branches[i]? = some b) :
    (b.head = none →
      revert s cid ts = some (s, ⟨false, "No commits to revert."⟩)) ∧
    (∀ hd : Nat, b.head = some hd →
      ((find_in_history s.arena s.arena.length (some hd) cid = none ∧
        (∀ r, s.root_commit = some r →
          dfsFind s.arena s.arena.length [r] cid = none)) →
        revert s cid ts =
          some (s, ⟨false, "Commit \x27" ++ cid ++ "\x27 not found."⟩)) ∧
      (∀ tk tc, revertTarget s hd cid = some tk → s.arena[tk]? = some tc →
        ∃ s' rr, revert s cid ts = some (s', rr) ∧ rr.success = true ∧
          s'.arena.length = s.arena.length + 1 ∧
          s'.arena[s.arena.length]? = some
            ⟨generate_hash ("revert:" ++ cid ++ ts), "Revert to " ++ cid,
             some hd, [], tc.snapshot⟩ ∧
          (∀ (k : Nat) (ck : Commit), s.arena[k]? = some ck →
            ∃ ck', s'.arena[k]? = some ck' ∧ ck'.commit_id = ck.commit_id ∧
              ck'.message = ck.message ∧ ck'.snapshot = ck.snapshot) ∧
          (∀ ch, s.arena[hd]? = some ch → s'.arena[hd]? =
            some { ch with children := ch.children ++ [s.arena.length] }) ∧
          s'.branches = s.branches.set i { b with head := some s.arena.length } ∧
          s'.active = s.active ∧
          s'.undo_stack = s.arena.length :: s.undo_stack ∧
          s'.redo_stack = [] ∧
          s'.working_files = tc.snapshot ∧
          s'.staging_area = tc.snapshot)) := by
  have hinit' : ¬ (¬ s.initialized = true) := by simp [hinit]
  constructor
  · intro hh
    simp only [MiniGit.revert, if_neg hinit', hact, hb, hh]
  · intro hd hh
    constructor
    · intro hfail
      have hnone : revertTarget s hd cid = none :=
        (revertTarget_none_iff s hd cid).mpr hfail
      simp only [MiniGit.revert, if_neg hinit', hact, hb, hh, hnone]
    · intro tk tc htk htc
      simp only [MiniGit.revert, if_neg hinit', hact, hb, hh, htk, htc]
      refine ⟨_, _, rfl, rfl, ?_, ?_, ?_, ?_, rfl, ?_, rfl, rfl,
        ?_, ?_⟩
      · dsimp only
        exact newArena_length _ _ _
      · rw [newArena_getElem?_new, FileState.copy_eq]
      · intro k ck hk
        obtain ⟨ck', h1, h2, h3, h4, h5⟩ := newArena_preserves s.arena (some hd)
          _ k ck hk
        exact ⟨ck', h1, h2, h3, h5⟩
      · intro ch hch
        exact newArena_getElem?_parent s.arena hd _ ch hch
      · dsimp only
      · exact FileState.copy_eq tc.snapshot
      · exact FileState.copy_eq tc.snapshot

/-- Witness for C5 (amended): a single-commit repository; reverting to
the head commit succeeds with all postconditions. -/
theorem c5_revert_spec_witness :
    ∃ (s : MiniGitState) (b : Branch), s.initialized = true ∧
      s.active = some 0 ∧ s.branches[0]? = some b ∧ b.head = some 0 ∧
      revertTarget s 0 "c0" = some 0 ∧
      ∃ s' rr, revert s "c0" "t2" = some (s', rr) ∧ rr.success = true := by
  refine ⟨{ initState with
              branches := [⟨"main", some 0⟩], active := some 0,
              initialized := true,
              arena := [⟨"c0", "m0", none, [], ⟨[⟨"a", "x"⟩]⟩⟩],
              root_commit := some 0 }, ⟨"main", some 0⟩,
    rfl, rfl, rfl, rfl, rfl, ?_⟩
  have hmain := ((c5_revert_spec { initState with
              branches := [⟨"main", some 0⟩], active := some 0,
              initialized := true,
              arena := [⟨"c0", "m0", none, [], ⟨[⟨"a", "x"⟩]⟩⟩],
              root_commit := some 0 } "c0" "t2" 0 ⟨"main", some 0⟩
      rfl rfl rfl).2 0 rfl).2 0 ⟨"c0", "m0", none, [], ⟨[⟨"a", "x"⟩]⟩⟩ rfl rfl
  obtain ⟨s', rr, heq, hsucc, _⟩ := hmain
  exact ⟨s', rr, heq, hsucc⟩

set_option maxRecDepth 8000 in
/-- Counterexample to C5 as stated: the commit message and the two
timestamps below make the fresh revert id collide with the target id:
after init; add a=x; commit; revert(head id), the brand-new revert
commit carries exactly the same id cf13c9f6 as its target, so the new
id is not always distinct from the target id. -/
theorem c5_revert_id_collision_cex :
    ∃ s s' : MiniGitState, ∃ rr : OpResult,
      runO initState [Op.init, Op.add "a" "x",
        Op.commit "AB\\ZO^QN" "Mon Oct 13 11:00:00 2025"] = some s ∧
      (s.arena[0]?).map Commit.commit_id = some "cf13c9f6" ∧
      revertTarget s 0 "cf13c9f6" = some 0 ∧
      revert s "cf13c9f6" "Mon Oct 13 12:00:01 2025" = some (s', rr) ∧
      rr.success = true ∧
      s'.arena.length = 2 ∧
      (s'.arena[1]?).map Commit.commit_id = some "cf13c9f6" ∧
      (s'.arena[1]?).map Commit.commit_id = (s'.arena[0]?).map Commit.commit_id := by
  refine ⟨_, _, _, rfl, ?_, ?_, rfl, ?_, ?_, ?_, ?_⟩ <;> decide

theorem addFileHAux_some (l : List Nat) :
    ∀ (heap : List HFile) (name content : String) (heap2 : List HFile),
      addFileHAux heap l name content = some heap2 →
      ∃ a ∈ l, ∃ f, heap[a]? = some f ∧
        heap2 = heap.set a { f with content := content } := by
  induction l with
  | nil =>
    intro heap name content heap2 h
    exact Option.noConfusion h
  | cons a rest ih =>
    intro heap name content heap2 h
    rw [addFileHAux] at h
    cases hf : heap[a]? with
    | none =>
      simp only [hf] at h
      obtain ⟨a', ha', f, hf', he⟩ := ih heap name content heap2 h
      exact ⟨a', List.mem_cons_of_mem _ ha', f, hf', he⟩
    | some f =>
      simp only [hf] at h
      by_cases hn : f.name = name
      · rw [if_pos hn] at h
        injection h with e
        exact ⟨a, List.mem_cons_self _ _, f, hf, e.symm⟩
      · rw [if_neg hn] at h
        obtain ⟨a', ha', f', hf', he⟩ := ih heap name content heap2 h
        exact ⟨a', List.mem_cons_of_mem _ ha', f', hf', he⟩

theorem entriesH_congr (heap heap2 : List HFile) (addrs : List Nat)
    (h : ∀ a ∈ addrs, heap2[a]? = heap[a]?) :
    entriesH heap2 addrs = entriesH heap addrs := by
  unfold entriesH
  exact List.map_congr_left (fun a ha => by rw [h a ha])

theorem applyHOp_frame (heap : List HFile) (act obs : List Nat) (op : HOp)
    (hobs : ∀ a ∈ obs, a < heap.length)
    (hdisj : ∀ a ∈ obs, a ∉ act) :
    entriesH (applyHOp (heap, act) op).1 obs = entriesH heap obs ∧
    (∀ a ∈ obs, a < (applyHOp (heap, act) op).1.length) ∧
    (∀ a ∈ obs, a ∉ (applyHOp (heap, act) op).2) := by
  cases op with
  | add n c =>
    simp only [applyHOp, addFileH]
    cases haux : addFileHAux heap act n c with
    | some heap2 =>
      obtain ⟨a0, ha0, f, hf, he⟩ := addFileHAux_some act heap n c heap2 haux
      subst he
      refine ⟨?_, ?_, hdisj⟩
      · refine entriesH_congr heap _ obs (fun a ha => ?_)
        have hne : a0 ≠ a := fun e => hdisj a ha (by rw [← e]; exact ha0)
        exact List.getElem?_set_ne hne
      · intro a ha
        rw [List.length_set]
        exact hobs a ha
    | none =>
      refine ⟨?_, ?_, ?_⟩
      · refine entriesH_congr heap _ obs (fun a ha => ?_)
        exact List.getElem?_append_left (hobs a ha)
      · intro a ha
        rw [List.length_append]
        exact Nat.lt_of_lt_of_le (hobs a ha) (Nat.le_add_right _ _)
      · intro a ha hmem
        rcases List.mem_append.mp hmem with hmem' | hmem'
        · exact hdisj a ha hmem'
        · rw [List.mem_singleton] at hmem'
          subst hmem'
          exact absurd (hobs _ ha) (Nat.lt_irrefl _)
  | remove n =>
    exact ⟨rfl, hobs, fun a ha hmem => hdisj a ha (List.mem_of_mem_filter hmem)⟩

theorem runH_frame (ops : List HOp) :
    ∀ (heap : List HFile) (act obs : List Nat),
      (∀ a ∈ obs, a < heap.length) → (∀ a ∈ obs, a ∉ act) →
      entriesH (runH (heap, act) ops).1 obs = entriesH heap obs := by
  induction ops with
  | nil =>
    intro heap act obs _ _
    rfl
  | cons op rest ih =>
    intro heap act obs hobs hdisj
    obtain ⟨he, ho, hd⟩ := applyHOp_frame heap act obs op hobs hdisj
    have hrec := ih (applyHOp (heap, act) op).1 (applyHOp (heap, act) op).2
      obs ho hd
    rw [runH]
    calc entriesH (runH (applyHOp (heap, act) op) rest).1 obs
        = entriesH (applyHOp (heap, act) op).1 obs := hrec
      _ = entriesH heap obs := he

theorem copyH_go (orig : List Nat) :
    ∀ (heap hAcc : List HFile) (lAcc : List Nat),
      heap.length ≤ hAcc.length →
      (∀ a : Nat, a < heap.length → hAcc[a]? = heap[a]?) →
      (∀ a ∈ orig, a < heap.length) →
      (∀ b ∈ lAcc, b < hAcc.length ∧ heap.length ≤ b) →
      ∃ h2 l2, orig.foldl copyStep (hAcc, lAcc) = (h2, l2) ∧
        hAcc.length ≤ h2.length ∧
        (∀ a : Nat, a < hAcc.length → h2[a]? = hAcc[a]?) ∧
        (∀ b ∈ l2, b < h2.length ∧ heap.length ≤ b) ∧
        entriesH h2 l2 = entriesH hAcc lAcc ++ entriesH heap orig := by
  induction orig with
  | nil =>
    intro heap hAcc lAcc hle hagree _ hbound
    refine ⟨hAcc, lAcc, rfl, Nat.le_refl _, fun a _ => rfl, hbound, ?_⟩
    simp [entriesH]
  | cons a rest ih =>
    intro heap hAcc lAcc hle hagree hval hbound
    have halt : a < heap.length := hval a (List.mem_cons_self _ _)
    obtain ⟨f, hf⟩ : ∃ f, heap[a]? = some f := by
      rw [List.getElem?_eq_getElem halt]; exact ⟨_, rfl⟩
    have hacc : hAcc[a]? = some f := by rw [hagree a halt, hf]
    have hstep : copyStep (hAcc, lAcc) a =
        (hAcc ++ [⟨f.name, f.content⟩], lAcc ++ [hAcc.length]) := by
      simp only [copyStep, hacc]
    rw [List.foldl_cons, hstep]
    obtain ⟨h2, l2, hfold, hlen, hagree2, hbound2, hent⟩ :=
      ih heap (hAcc ++ [⟨f.name, f.content⟩]) (lAcc ++ [hAcc.length])
        (Nat.le_trans hle (by simp))
        (fun a' ha' => by
          rw [List.getElem?_append_left (Nat.lt_of_lt_of_le ha' hle)]
          exact hagree a' ha')
        (fun a' ha' => hval a' (List.mem_cons_of_mem _ ha'))
        (fun b hb => by
          rcases List.mem_append.mp hb with hb' | hb'
          · obtain ⟨h1, h2'⟩ := hbound b hb'
            exact ⟨by rw [List.length_append]; omega, h2'⟩
          · rw [List.mem_singleton] at hb'
            subst hb'
            exact ⟨by simp, hle⟩)
    refine ⟨h2, l2, hfold, by rw [List.length_append] at hlen; omega, ?_, hbound2, ?_⟩
    · intro a' ha'
      rw [hagree2 a' (by rw [List.length_append]; omega)]
      exact List.getElem?_append_left ha'
    · rw [hent]
      have h1 : entriesH (hAcc ++ [⟨f.name, f.content⟩]) (lAcc ++ [hAcc.length]) =
          entriesH hAcc lAcc ++ [some (f.name, f.content)] := by
        unfold entriesH
        rw [List.map_append]
        congr 1
        · exact List.map_congr_left (fun b hb => by
            rw [List.getElem?_append_left (hbound b hb).1])
        · simp
      have h2' : entriesH heap (a :: rest) =
          some (f.name, f.content) :: entriesH heap rest := by
        unfold entriesH
        rw [List.map_cons, hf]
        rfl
      rw [h1, h2', List.append_assoc]
      rfl

/-- C9: copy yields a collection with the same ordered (name, content)
entries, built from freshly allocated File objects: for every subsequent
sequence of add/remove operations applied to the copy, the entries of
the original are unchanged, and vice versa — no File object is shared
between the two collections. -/
theorem c9_copy_independent (heap : List HFile) (orig : List Nat)
    (hv : ∀ a ∈ orig, a < heap.length) :
    ∃ heap2 cpy, copyH heap orig = (heap2, cpy) ∧
      entriesH heap2 cpy = entriesH heap orig ∧
      entriesH heap2 orig = entriesH heap orig ∧
      (∀ ops : List HOp,
        entriesH (runH (heap2, cpy) ops).1 orig = entriesH heap orig) ∧
      (∀ ops : List HOp,
        entriesH (runH (heap2, orig) ops).1 cpy = entriesH heap2 cpy) := by
  obtain ⟨h2, l2, hfold, hlen, hagree, hbounds, hent⟩ :=
    copyH_go orig heap heap [] (Nat.le_refl _) (fun a _ => rfl) hv
      (by intro b hb; cases hb)
  have hobs : ∀ a ∈ orig, h2[a]? = heap[a]? :=
    fun a ha => hagree a (hv a ha)
  have horig2 : entriesH h2 orig = entriesH heap orig :=
    entriesH_congr heap h2 orig hobs
  have hcpy : entriesH h2 l2 = entriesH heap orig := by
    rw [hent]
    simp [entriesH]
  refine ⟨h2, l2, hfold, hcpy, horig2, ?_, ?_⟩
  · intro ops
    have hf := runH_frame ops h2 l2 orig
      (fun a ha => Nat.lt_of_lt_of_le (hv a ha) hlen)
      (fun a ha hmem => absurd (hv a ha)
        (Nat.not_lt.mpr (hbounds a hmem).2))
    rw [hf, horig2]
  · intro ops
    exact runH_frame ops h2 orig l2
      (fun b hb => (hbounds b hb).1)
      (fun b hb hmem => absurd (hv b hmem)
        (Nat.not_lt.mpr (hbounds b hb).2))

/-- Witness for C9: a two-file collection; the copy has equal entries
and both directions of the frame property hold. -/
theorem c9_copy_independent_witness :
    (∀ a ∈ [0, 1], a < ([⟨"a", "1"⟩, ⟨"b", "2"⟩] : List HFile).length) ∧
    ∃ heap2 cpy, copyH [⟨"a", "1"⟩, ⟨"b", "2"⟩] [0, 1] = (heap2, cpy) ∧
      entriesH heap2 cpy = entriesH [⟨"a", "1"⟩, ⟨"b", "2"⟩] [0, 1] ∧
      entriesH heap2 [0, 1] = entriesH [⟨"a", "1"⟩, ⟨"b", "2"⟩] [0, 1] ∧
      (∀ ops : List HOp, entriesH (runH (heap2, cpy) ops).1 [0, 1] =
        entriesH [⟨"a", "1"⟩, ⟨"b", "2"⟩] [0, 1]) ∧
      (∀ ops : List HOp, entriesH (runH (heap2, [0, 1]) ops).1 cpy =
        entriesH heap2 cpy) :=
  ⟨by decide, c9_copy_independent [⟨"a", "1"⟩, ⟨"b", "2"⟩] [0, 1] (by decide)⟩

/-- C10: every operation that returns a failure result leaves the whole
repository state unchanged (failure atomicity): every failing path in
the source returns before any mutation. -/
theorem c10_failure_atomic (s : MiniGitState) (op : Op) (s' : MiniGitState)
    (r : OpResult) (h : step s op = some (s', r)) (hf : r.success = false) :
    s' = s := by
  cases op <;>
    simp only [step, init_repo, add_file_op, commit_files, checkout_branch,
      create_branch, merge_branch, MiniGit.undo, MiniGit.redo, MiniGit.revert,
      diff_file, get_status] at h <;>
    (repeat' split at h) <;>
  first
    | exact Option.noConfusion h
    | (simp only [Option.some.injEq, Prod.mk.injEq] at h
       obtain ⟨h1, h2⟩ := h
       first
         | exact h1.symm
         | (rw [← h2] at hf; simp at hf))

/-- Witness for C10: a commit on an uninitialized repository fails and
leaves the state untouched. -/
theorem c10_failure_atomic_witness :
    step initState (Op.commit "m" "t") =
      some (initState, ⟨false, "Error: repo not initialized."⟩) ∧
    initState = initState :=
  ⟨rfl, c10_failure_atomic initState (Op.commit "m" "t") initState
    ⟨false, "Error: repo not initialized."⟩ rfl rfl⟩

end MiniGit
